import Mathlib

/-!
Verification of the Temporal Dub Synthesis Engine of the video-translator
repository.  The definitions below are a shallow embedding of the
TypeScript sources `src/backend/services/TTSService.ts` and
`src/backend/services/WhisperService.ts`.  JavaScript numbers are modelled
by `ℚ` (the program only ever applies field operations and comparisons to
them; `NaN` is modelled by `Option ℚ` where it can arise), strings by
`List Char`, and the ffmpeg audio toolkit by exact duration arithmetic
(an `atempo=k` link divides the duration by `k`).
-/

/-! ## JavaScript string and number primitives -/

/-- The whitespace characters recognised by `String.prototype.trim` that can
occur in this pipeline (space, tab, line feed, carriage return, by code
point). -/
def jsWhitespace (c : Char) : Bool :=
  c.toNat = 32 || c.toNat = 9 || c.toNat = 10 || c.toNat = 13

/-- `String.prototype.trim`: drop whitespace from both ends. -/
def trimChars (s : List Char) : List Char :=
  ((s.dropWhile jsWhitespace).reverse.dropWhile jsWhitespace).reverse

/-- Numeric value of a digit string (used by `parseInt` on an all-digit
prefix). -/
def digitsVal (s : List Char) : ℕ :=
  s.foldl (fun a c => a * 10 + (c.toNat - 48)) 0

/-- JavaScript `parseInt(s, 10)`: skip leading whitespace, optional sign,
then the longest digit prefix; `none` models the `NaN` result when no digit
is found. -/
def parseIntJS (s : List Char) : Option ℤ :=
  let t := s.dropWhile jsWhitespace
  let neg : Bool := decide (t.head? = some '-')
  let rest := if neg || decide (t.head? = some '+') then t.tail else t
  let digits := rest.takeWhile Char.isDigit
  if digits.isEmpty then none
  else some ((if neg then -1 else 1) * (digitsVal digits : ℤ))

/-- `String.prototype.split` on a class of separator characters, with the
JavaScript conventions (`"".split(c) = [""]`, separators at the ends yield
empty fields). -/
def splitOnPred (p : Char → Bool) : List Char → List (List Char)
  | [] => [[]]
  | x :: xs =>
    let rest := splitOnPred p xs
    if p x then [] :: rest
    else
      match rest with
      | [] => [[x]]
      | r :: rs => (x :: r) :: rs

/-- `String.prototype.split(c)` for a single-character separator. -/
def splitOnChar (c : Char) (s : List Char) : List (List Char) :=
  splitOnPred (fun x => decide (x = c)) s

/-- `String.prototype.replace(a, b)` with single characters: replace only
the first occurrence. -/
def replaceFirst (a b : Char) : List Char → List Char
  | [] => []
  | x :: xs => if x = a then b :: xs else x :: replaceFirst a b xs

/-! ## WhisperService: SRT timestamp parsing (lines 251-276) -/

/-- Value of the millisecond field: `padEnd(3, '0').substring(0, 3)`
(missing digits padded with zeros, more than three digits truncated). -/
def msDigits (d : List Char) : List Char :=
  (d ++ List.replicate (3 - d.length) '0').take 3

/-- `WhisperService.parseSRTTimestamp` (lines 251-276).  `none` models a
`NaN` result (`parseInt` of a non-numeric field); note that a string whose
colon-split does not have exactly three fields makes the function *return
the default value `0`* (line 260), it does not fail. -/
def parseSRTTimestamp (timestamp : List Char) : Option ℚ :=
  let normalized := replaceFirst ',' '.' timestamp
  let parts := splitOnChar ':' normalized
  match parts with
  | [p0, p1, p2] =>
    let secondsParts := splitOnChar '.' p2
    let msField : Option ℤ :=
      match secondsParts.get? 1 with
      | some d => if d.isEmpty then some 0 else parseIntJS (msDigits d)
      | none => some 0
    match parseIntJS p0, parseIntJS p1, parseIntJS (secondsParts.headD []), msField with
    | some h, some m, some s, some ms =>
      some ((h : ℚ) * 3600 + (m : ℚ) * 60 + (s : ℚ) + (ms : ℚ) / 1000)
    | _, _, _, _ => none
  | _ => some 0

/-- Whether a field is a non-empty digit string. -/
def allDigits (s : List Char) : Bool := !s.isEmpty && s.all Char.isDigit

/-- Second definition, for the refinement comparison of claim C7,
following the spec's words (§6, "Recognizer timestamp ingest"): strings of
the form `HH:MM:SS,mmm` / `HH:MM:SS.mmm`, i.e. three colon-separated
numeric fields, the last split on `,` or `.`; missing milliseconds treated
as `0`, more than three millisecond digits truncated; `none` models the
`BadTimestamp` failure on any non-matching input. -/
def specSRTParse (s : List Char) : Option ℚ :=
  match splitOnChar ':' s with
  | [hF, mF, lastF] =>
    match splitOnPred (fun c => c = ',' || c = '.') lastF with
    | [secF] =>
      if allDigits hF && allDigits mF && allDigits secF then
        some ((digitsVal hF : ℚ) * 3600 + (digitsVal mF : ℚ) * 60 + (digitsVal secF : ℚ))
      else none
    | [secF, msF] =>
      if allDigits hF && allDigits mF && allDigits secF && msF.all Char.isDigit then
        some ((digitsVal hF : ℚ) * 3600 + (digitsVal mF : ℚ) * 60 + (digitsVal secF : ℚ)
          + (digitsVal (msDigits msF) : ℚ) / 1000)
      else none
    | _ => none
  | _ => none

/-! ## WhisperService: transcription segment ingest (lines 119-235) -/

/-- A raw timestamp value as found in the recognizer's JSON
(`seg.timestamps.from`, `seg.offsets.to`, ...): a string, a number
(milliseconds), or absent. -/
inductive RawTS
  | str (s : List Char)
  | num (q : ℚ)
  | absent
deriving DecidableEq, Repr

/-- JavaScript truthiness of a raw timestamp value (`""`, `0`, and
`undefined` are falsy). -/
def RawTS.truthy : RawTS → Bool
  | .str s => !s.isEmpty
  | .num q => decide (q ≠ 0)
  | .absent => false

/-- `a || b` on raw timestamp values (line 140-141). -/
def coalesce (a b : RawTS) : RawTS := if a.truthy then a else b

/-- Lines 143-157: a string value goes through `parseSRTTimestamp`, a
numeric value is divided by 1000, anything else leaves the initial `0`.
`none` models a `NaN` result. -/
def tsValue : RawTS → Option ℚ
  | .str s => parseSRTTimestamp s
  | .num q => some (q / 1000)
  | .absent => some 0

/-- A raw recognizer segment as read from the whisper JSON. -/
structure RawWhisperSeg where
  tsFrom : RawTS
  tsTo : RawTS
  offFrom : RawTS
  offTo : RawTS
  text : Option (List Char)
deriving DecidableEq, Repr

/-- A segment as returned by `WhisperService.transcribe`; `start`/`stop`
are `none` when the computed bound is `NaN` (`stop` models the source's
`end` field, which is a reserved word in Lean). -/
structure WSeg where
  start : Option ℚ
  stop : Option ℚ
  text : List Char
deriving DecidableEq, Repr

/-- JavaScript `>=` under possible `NaN` operands: any comparison with
`NaN` is false. -/
def geJS : Option ℚ → Option ℚ → Bool
  | some a, some b => decide (a ≥ b)
  | _, _ => false

/-- The segment mapper of `transcribe` (lines 136-179): coalesce the
timestamp sources, normalize to seconds, trim the text, and repair
`start >= end` to a minimum 100 ms duration. -/
def mapRawSeg (seg : RawWhisperSeg) : WSeg :=
  let start := tsValue (coalesce seg.tsFrom seg.offFrom)
  let stop := tsValue (coalesce seg.tsTo seg.offTo)
  let text := trimChars (seg.text.getD [])
  if geJS start stop then ⟨start, start.map (· + 1 / 10), text⟩
  else ⟨start, stop, text⟩

/-- Lines 121-181: map the raw segments and keep only those whose trimmed
text is non-empty (`.filter((seg) => seg.text)`). -/
def ingestSegments (raw : List RawWhisperSeg) : List WSeg :=
  (raw.map mapRawSeg).filter (fun s => !s.text.isEmpty)

/-- Lines 230-235: the `segments` field of the returned
`TranscriptionResult` is `undefined` (`none`) when no segment survived. -/
def transcribedSegments (raw : List RawWhisperSeg) : Option (List WSeg) :=
  let segs := ingestSegments raw
  if segs.length > 0 then some segs else none

/-! ## TTSService.synthesize: strategy selection and fallback (lines 43-110) -/

/-- The three synthesis strategies of the fallback ladder (§4.8). -/
inductive Strategy
  | timestamp
  | proportional
  | singleShot
deriving DecidableEq, Repr

/-- Line 45-48: every segment must have a numeric, non-`NaN` `start` and
`end` (within this pipeline every non-`NaN` number is finite, so `isSome`
is exact). -/
def hasValidTimestamps (segs : List WSeg) : Bool :=
  segs.all (fun s => s.start.isSome && s.stop.isSome)

/-- Control flow of `TTSService.synthesize` (lines 43-110).  `tsOk`,
`propOk` and `singleOk` say whether the call into the respective strategy
completes without throwing; the result is the strategy that produced the
output, or `Except.error` when the job fails.  The only fallback in the
source is the `catch` at line 61: a failing timestamp strategy falls back
to the proportional strategy; a failing proportional strategy propagates
out of `synthesize` as a job failure. -/
def runSynthesize (hasAudio : Bool) (segs : Option (List WSeg))
    (tsOk propOk singleOk : Bool) : Except Unit Strategy :=
  if hasAudio ∧ (segs.getD []).length > 0 then
    if hasValidTimestamps (segs.getD []) then
      if tsOk then .ok .timestamp
      else if propOk then .ok .proportional
      else .error ()
    else if propOk then .ok .proportional
    else .error ()
  else if hasAudio then
    if propOk then .ok .proportional
    else .error ()
  else if singleOk then .ok .singleShot
  else .error ()

/-! ## TTSService: rate calibration constants (lines 247-250) -/

/-- `TTSService.synthesizeWithWhisperTimestamps`, line 250:
`Math.min(15, Math.floor(alignedSegments.length * 0.20))`. -/
def calibrationSegmentCount (n : ℕ) : ℕ :=
  min 15 (Int.toNat ⌊(n : ℚ) * (20 / 100)⌋)

/-- Spec-side definition, for comparison with `calibrationSegmentCount`:
the spec (§3, §4.3) defines the calibration size with a ceiling,
`K = min(15, ⌈0.20·N⌉)`. -/
def calibrationSegmentCountCeil (n : ℕ) : ℕ :=
  min 15 (Int.toNat ⌈(n : ℚ) * (20 / 100)⌉)

/-- A calibration sample as recorded at TTSService.ts lines 343-348. -/
structure CalSample where
  targetDuration : ℚ
  actualDuration : ℚ
deriving DecidableEq, Repr

/-- Mean of per-sample target durations (line 293). -/
def avgTargetDuration (samples : List CalSample) : ℚ :=
  (samples.map CalSample.targetDuration).sum / samples.length

/-- Mean of per-sample actual durations (line 294). -/
def avgActualDuration (samples : List CalSample) : ℚ :=
  (samples.map CalSample.actualDuration).sum / samples.length

/-- `durationRatio = avgActualDuration / avgTargetDuration` (line 295). -/
def durationQuot (samples : List CalSample) : ℚ :=
  avgActualDuration samples / avgTargetDuration samples

/-- The per-sample duration quotients `s.actualDuration / s.targetDuration`
(line 299). -/
def sampleQuots (samples : List CalSample) : List ℚ :=
  samples.map (fun s => s.actualDuration / s.targetDuration)

/-- The dispersion computed by the code (lines 298-301): the mean squared
deviation of the per-sample quotients from `durationRatio` (which is the
quotient of the means, not the mean of the quotients). -/
def codeVariance (samples : List CalSample) : ℚ :=
  ((sampleQuots samples).map (fun r => (r - durationQuot samples) ^ 2)).sum
    / samples.length

/-- `TTSService.synthesizeWithWhisperTimestamps` lines 304-318, producing
the adaptive rate as an integer percentage.  The code's test
`stdDev < 0.3` on `stdDev = Math.sqrt(variance)` is encoded on the
nonnegative variance as `variance < 0.3 ^ 2`; the string
`'+' + Math.round(clampedRate) + '%'` is modelled by the rounded integer
(JavaScript `Math.round` rounds half-way cases up, as does Mathlib's
`round`). -/
def computeAdaptiveRate (samples : List CalSample) : ℤ :=
  let rateAdjustment : ℚ := (durationQuot samples - 1) * 100
  let clampedRate : ℚ :=
    if codeVariance samples < (3 / 10) ^ 2 then
      max (-100) (min 100 rateAdjustment)
    else 0
  if clampedRate = 0 then 0 else round clampedRate

/-- The textbook variance of a list of rationals (mean squared deviation
from the mean); this is the `σ²` of the spec's
"standard deviation σ of per-sample ratios". -/
def trueVariance (l : List ℚ) : ℚ :=
  (l.map (fun r => (r - l.sum / l.length) ^ 2)).sum / l.length

/-! ## TTSService: time-stretch primitives (lines 1093-1153) -/

/-- Clamp of the tempo factor at TTSService.ts line 1103:
`Math.max(0.5, Math.min(2.0, tempo))`. -/
def clampTempo (t : ℚ) : ℚ := max (1 / 2) (min 2 t)

/-- `Number.prototype.toFixed(3)` as used when printing the atempo factor
(lines 1145-1151): round to three decimal places (half-way cases up). -/
def fix3 (q : ℚ) : ℚ := (round (q * 1000) : ℚ) / 1000

/-- `TTSService.getAtempoFilter` (lines 1142-1153) as the list of atempo
factors of the generated ffmpeg filter string. -/
def getAtempoFilter (tempo : ℚ) : List ℚ :=
  if 1 / 2 ≤ tempo ∧ tempo ≤ 2 then [fix3 tempo]
  else if tempo < 1 / 2 then [1 / 2, fix3 (tempo / (1 / 2))]
  else [2, fix3 (tempo / 2)]

/-- `TTSService.timeStretchAudio` (lines 1093-1130): the filter chain it
runs is built from the tempo `currentDuration / targetDuration` clamped to
`[0.5, 2.0]` *before* `getAtempoFilter` is consulted. -/
def timeStretchTempoChain (targetDuration currentDuration : ℚ) : List ℚ :=
  getAtempoFilter (clampTempo (currentDuration / targetDuration))

/-- Idealised audio-toolkit semantics: a chain of `atempo=k` links divides
the input duration by the product of the factors. -/
def chainResultDuration (currentDuration : ℚ) (chain : List ℚ) : ℚ :=
  currentDuration / chain.prod

/-- Duration of a stretched segment as produced by `timeStretchAudio`. -/
def stretchedDuration (targetDuration currentDuration : ℚ) : ℚ :=
  chainResultDuration currentDuration
    (timeStretchTempoChain targetDuration currentDuration)

/-! ## TTSService: segment aligner (lines 478-656) -/

/-- A timed segment of the aligner's output
(`{ text, startTime, endTime }`). -/
structure TimedSeg where
  text : List Char
  startTime : ℚ
  endTime : ℚ
deriving DecidableEq, Repr

/-- A recognizer segment with validated (non-`NaN`) bounds, as used by the
alignment arithmetic after the validation at lines 486-502. -/
structure QSeg where
  start : ℚ
  stop : ℚ
deriving DecidableEq, Repr

/-- Indexing helper mirroring JavaScript array access on the validated
recognizer list. -/
def wAt (l : List QSeg) (i : ℕ) : QSeg := l.getD i ⟨0, 0⟩

/-- Indexing helper mirroring JavaScript array access on the translated
parts. -/
def tAt (l : List (List Char)) (i : ℕ) : List Char := l.getD i []

/-- The time redistribution of the overlap repair (lines 601-609): walk the
group accumulating `cumulativeTime`, giving each segment a share of
`rangeDuration` proportional to its text length. -/
def redistribute (rangeDuration total : ℚ) : ℚ → List TimedSeg → List TimedSeg
  | _, [] => []
  | cum, s :: ss =>
    let d := rangeDuration * ((s.text.length : ℚ) / total)
    ⟨s.text, cum, cum + d⟩ :: redistribute rangeDuration total (cum + d) ss

/-- The overlap repair of Case C (lines 576-614): whenever the next
segment starts before the current one ends, gather the maximal run of
segments starting before `current.endTime`, redistribute
`[current.startTime, current.endTime]` over the run by text-length
proportion, and continue after the run. -/
def fixOverlaps : List TimedSeg → List TimedSeg
  | [] => []
  | [a] => [a]
  | a :: b :: rs =>
    if b.startTime < a.endTime then
      let grp := a :: (b :: rs).takeWhile (fun s => decide (s.startTime < a.endTime))
      let rest2 := (b :: rs).dropWhile (fun s => decide (s.startTime < a.endTime))
      let total : ℚ := (grp.map (fun s => (s.text.length : ℚ))).sum
      redistribute (a.endTime - a.startTime) total a.startTime grp ++ fixOverlaps rest2
    else
      a :: fixOverlaps (b :: rs)
termination_by l => l.length
decreasing_by
  · have h1 : ((b :: rs).dropWhile
        (fun s => decide (s.startTime < a.endTime))).length ≤ (b :: rs).length :=
      (List.dropWhile_suffix (l := b :: rs)
        (fun s => decide (s.startTime < a.endTime))).sublist.length_le
    simp only [List.length_cons] at h1 ⊢
    omega
  · simp

/-- One step of Case B of the aligner (lines 531-551): the recognizer
indices mapping to `transIdx` (`whisperToTranslated[i] == transIdx`); when
the group is non-empty, emit a segment spanning from the first
contributing recognizer's start to the last contributing recognizer's
end; empty groups are omitted. -/
def caseBEmit (translatedSegments : List (List Char)) (whisperSegments : List QSeg)
    (w2t : ℕ → ℕ) (r : ℕ) (transIdx : ℕ) : Option TimedSeg :=
  match (List.range r).filter (fun i => w2t i = transIdx) with
  | [] => none
  | ws => some ⟨tAt translatedSegments transIdx,
                (wAt whisperSegments (ws.headD 0)).start,
                (wAt whisperSegments (ws.getLastD 0)).stop⟩

/-- `TTSService.alignTranslatedSegmentsWithTimestamps` (lines 478-656) on
validated recognizer segments: Case A (lines 504-513, equal counts) pairs
one-to-one; Case B (lines 514-551, fewer translated parts) groups the
recognizer segments mapping to each translated index; Case C (lines
552-614, more translated parts) maps each part to a recognizer segment and
then repairs overlaps.  The final verification loop (lines 617-634) only
logs warnings and is not part of the value. -/
def alignCore (translatedSegments : List (List Char))
    (whisperSegments : List QSeg) : List TimedSeg :=
  let m := translatedSegments.length
  let r := whisperSegments.length
  if m = r then
    (translatedSegments.zip whisperSegments).map fun p => ⟨p.1, p.2.start, p.2.stop⟩
  else if m < r then
    let ratioMR : ℚ := (m : ℚ) / (r : ℚ)
    let w2t : ℕ → ℕ := fun i => min (Int.toNat ⌊(i : ℚ) * ratioMR⌋) (m - 1)
    (List.range m).filterMap (caseBEmit translatedSegments whisperSegments w2t r)
  else
    let ratioRM : ℚ := (r : ℚ) / (m : ℚ)
    fixOverlaps ((List.range m).map fun (i : ℕ) =>
      let j := min (Int.toNat ⌊(i : ℚ) * ratioRM⌋) (r - 1)
      ⟨tAt translatedSegments i, (wAt whisperSegments j).start, (wAt whisperSegments j).stop⟩)

/-- The full aligner including the validation of lines 486-502: any
segment with a `NaN` bound makes the function throw
(`Except.error`). -/
def alignTranslatedSegmentsWithTimestamps (translatedSegments : List (List Char))
    (whisperSegments : List WSeg) : Except Unit (List TimedSeg) :=
  if hasValidTimestamps whisperSegments then
    .ok (alignCore translatedSegments
      (whisperSegments.map fun s => ⟨s.start.getD 0, s.stop.getD 0⟩))
  else .error ()

/-- Absence of overlaps between consecutive timed segments, the
post-condition of spec §4.2. -/
def NoOverlap (l : List TimedSeg) : Prop :=
  List.Chain' (fun a b => a.endTime ≤ b.startTime) l

/-! ## TTSService: the per-segment synthesis loop (lines 252-449) -/

/-- An audio artifact enqueued for concatenation: a silence of a given
duration, or the synthesized (possibly stretched) speech of segment
`index`, with the rate passed to the synthesizer and the resulting
duration. -/
inductive Artifact
  | silence (duration : ℚ)
  | speech (index : ℕ) (rate : ℤ) (duration : ℚ)
deriving DecidableEq, Repr

/-- The body of the `for` loop of `synthesizeWithWhisperTimestamps`
(lines 252-386), parametrised by an oracle `actual` giving the measured
duration of the synthesizer output for segment `i` (all synthesizer calls
whose duration is recorded happen at rate `+0%`).  State threaded through
the loop: current index, adaptive rate (integer percent, `0` = `'+0%'`),
calibration samples, and the previous segment's `endTime`.  Returns the
enqueued artifacts together with the final rate and samples. -/
def synthSegments (actual : ℕ → ℚ) (calCount : ℕ) :
    List TimedSeg → ℕ → ℤ → List CalSample → Option ℚ →
    List Artifact × ℤ × List CalSample
  | [], _, rate, samples, _ => ([], rate, samples)
  | seg :: rest, i, rate, samples, prevEnd =>
    let targetDuration := seg.endTime - seg.startTime
    let silenceBefore :=
      match prevEnd with
      | none => seg.startTime
      | some p => seg.startTime - p
    let lead : List Artifact :=
      if silenceBefore > 1 / 50 then [.silence silenceBefore] else []
    if (trimChars seg.text).isEmpty then
      let res := synthSegments actual calCount rest (i + 1) rate samples (some seg.endTime)
      (lead ++ .silence targetDuration :: res.1, res.2)
    else
      let rate1 := if i = calCount ∧ ¬samples.isEmpty then computeAdaptiveRate samples else rate
      let actualDuration := actual i
      let samples1 :=
        if i < calCount then samples ++ [⟨targetDuration, actualDuration⟩] else samples
      let outDur :=
        if |targetDuration - actualDuration| > 1 / 1000 then
          stretchedDuration targetDuration actualDuration
        else actualDuration
      let res := synthSegments actual calCount rest (i + 1) rate1 samples1 (some seg.endTime)
      (lead ++ .speech i rate1 outDur :: res.1, res.2)

/-- `synthesizeWithWhisperTimestamps` (lines 208-449) after alignment: run
the loop from index `0` with rate `'+0%'` and no samples, then append the
trailing silence when `originalDuration - last.endTime > 0.02` (lines
388-396). -/
def synthesizeTimestamped (actual : ℕ → ℚ) (originalDuration : ℚ)
    (aligned : List TimedSeg) : List Artifact :=
  let calCount := calibrationSegmentCount aligned.length
  let res := synthSegments actual calCount aligned 0 0 [] none
  let lastEnd := ((aligned.getLast?).map TimedSeg.endTime).getD 0
  let finalSilence := originalDuration - lastEnd
  res.1 ++ (if finalSilence > 1 / 50 then [.silence finalSilence] else [])

/-- The calibration samples the loop records, described directly: one
sample per non-placeholder segment of index `< calCount`, pairing the
segment's target duration with the measured duration. -/
def recordedSamplesFrom (actual : ℕ → ℚ) (calCount : ℕ) (i0 : ℕ)
    (segs : List TimedSeg) : List CalSample :=
  ((segs.enumFrom i0).filter
      (fun p => decide (p.1 < calCount) && !(trimChars p.2.text).isEmpty)).map
    fun p => ⟨p.2.endTime - p.2.startTime, actual p.1⟩

/-! ## TTSService: proportional splitter (lines 663-752) -/

/-- `String.prototype.substring(a)` (clamp to `[0, length]`, take the
suffix). -/
def substringFrom (text : List Char) (a : ℤ) : List Char :=
  text.drop a.toNat

/-- `String.prototype.substring(a, b)` (clamp both arguments to
`[0, length]`, swap them when out of order, take the slice). -/
def substringJS (text : List Char) (a b : ℤ) : List Char :=
  let len : ℤ := text.length
  let a1 := (max 0 (min a len)).toNat
  let b1 := (max 0 (min b len)).toNat
  (text.take (max a1 b1)).drop (min a1 b1)

/-- `String.prototype.indexOf(pat, from)`: smallest index `≥ from` where
`pat` occurs, `-1` when there is none. -/
def indexOfFrom (text pat : List Char) (startPos : ℤ) : ℤ :=
  match (List.range (text.length + 1)).find?
      (fun (i : ℕ) => decide (startPos ≤ (i : ℤ)) && pat.isPrefixOf (text.drop i)) with
  | some i => i
  | none => -1

/-- `score < bestBreakScore` where `none` models the initial
`Infinity`. -/
def ltInf (a : ℤ) : Option ℤ → Bool
  | none => true
  | some b => decide (a < b)

/-- `bestBreakScore < searchWindow` where `none` models `Infinity`. -/
def scoreLt (s : Option ℤ) (w : ℤ) : Bool :=
  match s with
  | none => false
  | some v => decide (v < w)

/-- The inner `while` of the break-point search (lines 701-716): repeatedly
`indexOf` the break string from `searchPos`, stop at `-1` or past
`searchEnd`, keep the candidate closest to `idealEndPos` (state:
`(bestBreakPos, bestBreakScore)`).  The loop advances `searchPos` past
each hit, so `text.length + 2` steps of fuel always suffice. -/
def scanBreakChar (text pat : List Char) (searchEnd idealEndPos : ℤ) :
    ℕ → ℤ → ℤ × Option ℤ → ℤ × Option ℤ
  | 0, _, best => best
  | fuel + 1, searchPos, best =>
    if searchPos < searchEnd then
      let pos := indexOfFrom text pat searchPos
      if pos = -1 ∨ pos ≥ searchEnd then best
      else
        let score := |pos - idealEndPos|
        let best1 := if ltInf score best.2 then (pos + (pat.length : ℤ), some score) else best
        scanBreakChar text pat searchEnd idealEndPos fuel (pos + 1) best1
    else best

/-- The break characters in order of preference (line 696). -/
def breakChars : List (List Char) :=
  [". ".toList, "! ".toList, "? ".toList, "; ".toList, ", ".toList,
   " ".toList, ".".toList, "!".toList, "?".toList, ";".toList, ",".toList]

/-- The `for (const breakChar of breakChars)` loop (lines 700-722): scan
each break string; once a candidate with score `< searchWindow` is found,
stop. -/
def loopBreakChars (text : List Char) (searchStart searchEnd idealEndPos searchWindow : ℤ) :
    List (List Char) → ℤ × Option ℤ → ℤ × Option ℤ
  | [], best => best
  | pat :: rest, best =>
    let best1 := scanBreakChar text pat searchEnd idealEndPos (text.length + 2) searchStart best
    if best1.1 ≠ -1 ∧ scoreLt best1.2 searchWindow then best1
    else loopBreakChars text searchStart searchEnd idealEndPos searchWindow rest best1

/-- `result.push(segment.length > 0 ? segment : ' ')` after
`segment = ... .trim()` (lines 684-685, 736-737). -/
def pushSeg (s : List Char) : List Char :=
  let t := trimChars s
  if t.isEmpty then " ".toList else t

/-- The main `for` loop of `splitTextProportionally` (lines 678-740),
recursing on the number of parts still to produce (`remaining`); the loop
index is `i = n - remaining`. -/
def splitLoop (text : List Char) (cps : ℚ) (totalChars : ℤ) (n : ℕ) :
    ℕ → ℤ → List (List Char)
  | 0, _ => []
  | remaining + 1, currentPos =>
    let i : ℕ := n - (remaining + 1)
    let idealEndPos : ℤ := round (((i : ℚ) + 1) * cps)
    if remaining = 0 then
      [pushSeg (substringFrom text currentPos)]
    else
      let searchWindow : ℤ := ⌊cps * (2 / 10)⌋
      let searchStart : ℤ := max (currentPos + 1) (idealEndPos - searchWindow)
      let searchEnd : ℤ := min (totalChars - 1) (idealEndPos + searchWindow)
      let best := loopBreakChars text searchStart searchEnd idealEndPos searchWindow
        breakChars (-1, none)
      let breakPos0 : ℤ := if best.1 ≠ -1 then best.1 else idealEndPos
      let breakPos1 : ℤ := min breakPos0 totalChars
      let breakPos : ℤ :=
        if breakPos1 ≤ currentPos then min (currentPos + ⌈cps⌉) totalChars else breakPos1
      pushSeg (substringJS text currentPos breakPos) ::
        splitLoop text cps totalChars n remaining breakPos

/-- The final count guarantee (lines 742-749): pad with `' '` up to
`n` parts, truncate beyond `n`. -/
def normalizeCount (n : ℕ) (result : List (List Char)) : List (List Char) :=
  (result ++ List.replicate (n - result.length) " ".toList).take n

/-- `TTSService.splitTextProportionally` (lines 663-752).  `n ≤ 0` and
`n = 1` return `[text]` unchanged (lines 664-670). -/
def splitTextProportionally (text : List Char) (targetSegmentCount : ℤ) : List (List Char) :=
  if targetSegmentCount ≤ 0 then [text]
  else if targetSegmentCount = 1 then [text]
  else
    let totalChars : ℤ := text.length
    let cps : ℚ := (totalChars : ℚ) / (targetSegmentCount : ℚ)
    let n : ℕ := targetSegmentCount.toNat
    normalizeCount n (splitLoop text cps totalChars n n 0)

/-! ## TTSService: final micro-trim (lines 409-441) -/

/-- The final-adjustment guard at TTSService.ts line 423:
`durationDiff > 0.1`, an absolute 100 ms threshold on
`Math.abs(finalDuration - originalDuration)`. -/
def needsFinalAdjustment (originalDuration finalDuration : ℚ) : Bool :=
  |finalDuration - originalDuration| > 1 / 10

/-- Duration of the job output after the final micro-trim step
(lines 421-441): stretched through `timeStretchAudio` when the guard
fires, untouched otherwise. -/
def finalAdjustedDuration (originalDuration finalDuration : ℚ) : ℚ :=
  if needsFinalAdjustment originalDuration finalDuration then
    stretchedDuration originalDuration finalDuration
  else finalDuration

/-! ## Theorems -/

/-- Claim C3, counterexample: with `D_orig = 5 s` and `D_final = 5.09 s`
the relative deviation is `1.8% > 1%`, yet the engine applies no final
time-stretch (its guard is the absolute `durationDiff > 0.1` of line 423),
so the output keeps a relative error above 1%. -/
theorem finalTrim_relative_tolerance_violated :
    needsFinalAdjustment 5 (509 / 100) = false ∧
    finalAdjustedDuration 5 (509 / 100) = 509 / 100 ∧
    |(509 : ℚ) / 100 - 5| / 5 > 1 / 100 := by
  refine ⟨?_, ?_, ?_⟩
  · simp only [needsFinalAdjustment, decide_eq_false_iff_not, not_lt]
    rw [show (509 : ℚ) / 100 - 5 = 9 / 100 by norm_num, abs_of_nonneg (by norm_num)]
    norm_num
  · rw [finalAdjustedDuration, if_neg]
    simp only [needsFinalAdjustment, decide_eq_true_eq, not_lt]
    rw [show (509 : ℚ) / 100 - 5 = 9 / 100 by norm_num, abs_of_nonneg (by norm_num)]
    norm_num
  · rw [show (509 : ℚ) / 100 - 5 = 9 / 100 by norm_num, abs_of_nonneg (by norm_num)]
    norm_num

/-- Claim C3, amended: the final micro-trim fires on an absolute
threshold, `|D_final − D_orig| > 0.1 s`, not on the relative 1% of the
spec; when it does not fire the output is left unchanged and the
guaranteed bound is the absolute `|D_final − D_orig| ≤ 0.1 s`. -/
theorem finalTrim_absolute_threshold (originalDuration finalDuration : ℚ) :
    (needsFinalAdjustment originalDuration finalDuration = true ↔
      |finalDuration - originalDuration| > 1 / 10) ∧
    (needsFinalAdjustment originalDuration finalDuration = false →
      finalAdjustedDuration originalDuration finalDuration = finalDuration ∧
      |finalDuration - originalDuration| ≤ 1 / 10) := by
  refine ⟨by simp [needsFinalAdjustment], fun h => ⟨?_, ?_⟩⟩
  · rw [finalAdjustedDuration, if_neg]
    simp [h]
  · simpa [needsFinalAdjustment, not_lt] using h

/-- Witness for `finalTrim_absolute_threshold` at
`D_orig = 10`, `D_final = 10.05`. -/
theorem finalTrim_absolute_threshold_witness :
    finalAdjustedDuration 10 (1005 / 100) = 1005 / 100 ∧
    |(1005 : ℚ) / 100 - 10| ≤ 1 / 10 := by
  refine (finalTrim_absolute_threshold 10 (1005 / 100)).2 ?_
  simp only [needsFinalAdjustment, decide_eq_false_iff_not, not_lt]
  rw [show (1005 : ℚ) / 100 - 10 = 1 / 20 by norm_num, abs_of_nonneg (by norm_num)]
  norm_num

/-- Claim C4, counterexample: for an aligned list of `N = 3` segments the
code (line 250) takes `K = min(15, Math.floor(3 · 0.20)) = 0`, while the
spec's formula `K = min(15, ⌈3 · 0.20⌉)` gives `1`: the calibration size
uses a floor, not the claimed ceiling. -/
theorem calibrationCount_floor_not_ceil :
    calibrationSegmentCount 3 = 0 ∧ calibrationSegmentCountCeil 3 = 1 ∧
    calibrationSegmentCount 3 ≠ calibrationSegmentCountCeil 3 := by
  have h1 : calibrationSegmentCount 3 = 0 := by norm_num [calibrationSegmentCount]
  have h2 : calibrationSegmentCountCeil 3 = 1 := by
    have h : ((3 : ℚ) * (20 / 100)) = 3 / 5 := by norm_num
    have hc : ⌈(3 : ℚ) / 5⌉ = 1 := by
      rw [Int.ceil_eq_iff] ; norm_num
    simp [calibrationSegmentCountCeil, h, hc]
  exact ⟨h1, h2, by rw [h1, h2]; omega⟩

/-- Claim C5, counterexample: at `target_s = 1`, `actual_s = 3` the
unclamped tempo is `τ = 3 ∉ [0.5, 2]`, but `timeStretchAudio` clamps the
tempo *before* consulting `getAtempoFilter` (lines 1100-1119), so the
filter chain is the single link `atempo=2.000` — not a two-link chain with
product `3` — and the stretched duration is `1.5 s`, not the target
`1 s`. -/
theorem timeStretch_clamped_not_exact :
    timeStretchTempoChain 1 3 = [2] ∧
    chainResultDuration 3 (timeStretchTempoChain 1 3) = 3 / 2 ∧
    ((3 : ℚ) / 2 ≠ 1) ∧ ((2 : ℚ) ≠ 3) := by
  have hchain : timeStretchTempoChain 1 3 = [2] := by
    norm_num [timeStretchTempoChain, clampTempo, getAtempoFilter, fix3]
  refine ⟨hchain, ?_, by norm_num, by norm_num⟩
  rw [hchain, chainResultDuration]
  norm_num

/-- Claim C5, amended: when the unclamped tempo `τ = actual_s / target_s`
lies outside `[0.5, 2]`, `timeStretchAudio` still emits a *single* atempo
link at the clamped boundary (the chaining branch of `getAtempoFilter` is
unreachable from it), so the stretched duration misses the target:
`actual/2 > target` for `τ > 2`, and `2·actual < target` for
`τ < 1/2`. -/
theorem timeStretch_clamps_out_of_range (targetDuration actualDuration : ℚ)
    (hT : 0 < targetDuration) :
    (2 < actualDuration / targetDuration →
      timeStretchTempoChain targetDuration actualDuration = [2] ∧
      stretchedDuration targetDuration actualDuration = actualDuration / 2 ∧
      targetDuration < stretchedDuration targetDuration actualDuration) ∧
    (actualDuration / targetDuration < 1 / 2 →
      timeStretchTempoChain targetDuration actualDuration = [1 / 2] ∧
      stretchedDuration targetDuration actualDuration = 2 * actualDuration ∧
      stretchedDuration targetDuration actualDuration < targetDuration) := by
  constructor
  · intro h2
    have hc : clampTempo (actualDuration / targetDuration) = 2 := by
      rw [clampTempo, min_eq_left (le_of_lt h2), max_eq_right (by norm_num)]
    have hchain : timeStretchTempoChain targetDuration actualDuration = [2] := by
      rw [timeStretchTempoChain, hc, getAtempoFilter, if_pos (by norm_num)]
      norm_num [fix3]
    have hdur : stretchedDuration targetDuration actualDuration = actualDuration / 2 := by
      rw [stretchedDuration, hchain, chainResultDuration]
      norm_num
    refine ⟨hchain, hdur, ?_⟩
    rw [hdur]
    have := (lt_div_iff₀ hT).mp h2
    linarith
  · intro h2
    have hle : actualDuration / targetDuration ≤ 2 := by linarith
    have hc : clampTempo (actualDuration / targetDuration) = 1 / 2 := by
      rw [clampTempo, min_eq_right hle, max_eq_left (le_of_lt h2)]
    have hchain : timeStretchTempoChain targetDuration actualDuration = [1 / 2] := by
      rw [timeStretchTempoChain, hc, getAtempoFilter, if_pos (by norm_num)]
      norm_num [fix3]
    have hdur : stretchedDuration targetDuration actualDuration = 2 * actualDuration := by
      rw [stretchedDuration, hchain, chainResultDuration]
      norm_num
      ring
    refine ⟨hchain, hdur, ?_⟩
    rw [hdur]
    have := (div_lt_iff₀ hT).mp h2
    linarith

/-- Witness for `timeStretch_clamps_out_of_range` at
`target_s = 1`, `actual_s = 5`. -/
theorem timeStretch_clamps_out_of_range_witness :
    timeStretchTempoChain 1 5 = [2] ∧
    stretchedDuration 1 5 = 5 / 2 ∧ (1 : ℚ) < stretchedDuration 1 5 := by
  have h := (timeStretch_clamps_out_of_range 1 5 (by norm_num)).1 (by norm_num)
  exact ⟨h.1, h.2.1, h.2.2⟩

/-- Claim C6, counterexample: with original audio present, one valid
recognizer segment, a failing timestamp strategy and a failing
proportional strategy (while single-shot synthesis would succeed), the job
ends in failure — `synthesize` has no catch around the proportional path
(lines 61-72 fall back only from timestamp to proportional), so a
synthesis failure inside the proportional strategy does *not* degrade to
single-shot. -/
theorem proportional_failure_is_job_failure :
    runSynthesize true (some [⟨some 0, some 1, ['a']⟩]) false false true = .error () ∧
    runSynthesize true (some [⟨some 0, some 1, ['a']⟩]) false false true ≠ .ok .singleShot := by
  have h : runSynthesize true (some [⟨some 0, some 1, ['a']⟩]) false false true = .error () := rfl
  rw [h]
  simp

/-- Claim C6, amended: the timestamp strategy is entered iff original
audio is present, the recognizer segment list is non-empty, and every
segment has numeric non-`NaN` bounds (the code checks `!isNaN` only, not
finiteness); on a hard synthesis error inside it the job degrades one
level to the proportional strategy; but a failure inside the proportional
strategy is a job failure, and single-shot runs only when no original
audio path is supplied. -/
theorem fallback_ladder (hasAudio tsOk propOk singleOk : Bool) (segs : Option (List WSeg)) :
    (runSynthesize hasAudio segs tsOk propOk singleOk = .ok .timestamp ↔
      hasAudio = true ∧ 0 < (segs.getD []).length ∧
        hasValidTimestamps (segs.getD []) = true ∧ tsOk = true) ∧
    ((hasAudio = true ∧ 0 < (segs.getD []).length ∧
        hasValidTimestamps (segs.getD []) = true ∧ tsOk = false) →
      runSynthesize hasAudio segs tsOk propOk singleOk =
        (if propOk then .ok .proportional else .error ())) ∧
    (runSynthesize hasAudio segs tsOk propOk singleOk = .ok .singleShot → hasAudio = false) := by
  unfold runSynthesize
  rcases hasAudio <;> rcases tsOk <;> rcases propOk <;> rcases singleOk <;>
    by_cases h1 : 0 < (segs.getD []).length <;>
    by_cases h2 : hasValidTimestamps (segs.getD []) = true <;>
    simp_all

/-- Witness for `fallback_ladder`: a valid one-segment input with a
succeeding timestamp strategy runs the timestamp strategy. -/
theorem fallback_ladder_witness :
    runSynthesize true (some [⟨some 0, some 1, ['a']⟩]) true true true = .ok .timestamp := by
  exact (fallback_ladder true true true true (some [⟨some 0, some 1, ['a']⟩])).1.mpr
    ⟨rfl, by simp, rfl, rfl⟩

/-! ### String-level helper lemmas for the timestamp parser -/

theorem digit_toNat (c : Char) (h : c.isDigit = true) : 48 ≤ c.toNat ∧ c.toNat ≤ 57 := by
  simpa only [Char.isDigit, decide_eq_true_eq, Bool.and_eq_true] using h

theorem digit_not_ws (c : Char) (h : c.isDigit = true) : jsWhitespace c = false := by
  have hb := digit_toNat c h
  simp only [jsWhitespace, Bool.or_eq_false_iff, decide_eq_false_iff_not]
  omega

theorem digit_ne_char (c d : Char) (h : c.isDigit = true) (hd : d.isDigit = false) : c ≠ d := by
  intro he
  rw [he, hd] at h
  cases h

theorem dropWhile_ws_of_digits (s : List Char) (h : s.all Char.isDigit = true) :
    s.dropWhile jsWhitespace = s := by
  cases s with
  | nil => rfl
  | cons d ds =>
    rw [List.dropWhile_cons, if_neg]
    simp only [List.all_cons, Bool.and_eq_true] at h
    simp [digit_not_ws d h.1]

theorem takeWhile_digits (s : List Char) (h : s.all Char.isDigit = true) :
    s.takeWhile Char.isDigit = s := by
  induction s with
  | nil => rfl
  | cons d ds ih =>
    simp only [List.all_cons, Bool.and_eq_true] at h
    rw [List.takeWhile_cons, if_pos (by simp [h.1]), ih h.2]

theorem parseIntJS_digits (s : List Char) (hne : s ≠ []) (h : s.all Char.isDigit = true) :
    parseIntJS s = some (digitsVal s : ℤ) := by
  unfold parseIntJS
  rw [dropWhile_ws_of_digits s h]
  cases s with
  | nil => exact absurd rfl hne
  | cons d ds =>
    simp only [List.all_cons, Bool.and_eq_true] at h
    have hminus : d ≠ '-' := digit_ne_char d '-' h.1 (by decide)
    have hplus : d ≠ '+' := digit_ne_char d '+' h.1 (by decide)
    have hh : (d :: ds).head? = some d := rfl
    simp only [hh, Option.some.injEq, decide_eq_true_eq, hminus, hplus,
      decide_eq_false_iff_not, not_false_iff, Bool.or_self, if_false, Bool.false_or]
    rw [takeWhile_digits (d :: ds) (by simp [h.1, h.2])]
    simp

theorem splitOnPred_ne_nil (p : Char → Bool) (s : List Char) : splitOnPred p s ≠ [] := by
  cases s with
  | nil => simp [splitOnPred]
  | cons x xs =>
    rw [splitOnPred]
    by_cases hp : p x = true
    · simp [hp]
    · rcases hsp : splitOnPred p xs with _ | ⟨r, rs⟩ <;> simp [hsp, hp]

theorem splitOnPred_eq_single (p : Char → Bool) (s : List Char)
    (h : ∀ c ∈ s, p c = false) : splitOnPred p s = [s] := by
  induction s with
  | nil => rfl
  | cons x xs ih =>
    rw [splitOnPred, ih (fun c hc => h c (List.mem_cons_of_mem x hc))]
    simp [h x (List.mem_cons_self x xs)]

theorem splitOnPred_append (p : Char → Bool) (a : List Char) (c : Char) (rest : List Char)
    (h : ∀ x ∈ a, p x = false) (hc : p c = true) :
    splitOnPred p (a ++ c :: rest) = a :: splitOnPred p rest := by
  induction a with
  | nil => simp [splitOnPred, hc]
  | cons x xs ih =>
    have hx : p x = false := h x (List.mem_cons_self x xs)
    have ih2 := ih (fun y hy => h y (List.mem_cons_of_mem x hy))
    simp only [List.cons_append]
    rw [splitOnPred, ih2]
    simp [hx]

theorem replaceFirst_not_mem (a b : Char) (s : List Char) (h : a ∉ s) :
    replaceFirst a b s = s := by
  induction s with
  | nil => rfl
  | cons x xs ih =>
    unfold replaceFirst
    rw [if_neg (by rintro rfl; exact h (List.mem_cons_self x xs)),
      ih (fun hm => h (List.mem_cons_of_mem x hm))]

theorem replaceFirst_append (a b : Char) (l r : List Char) (h : a ∉ l) :
    replaceFirst a b (l ++ a :: r) = l ++ b :: r := by
  induction l with
  | nil => simp [replaceFirst]
  | cons x xs ih =>
    simp only [List.cons_append]
    unfold replaceFirst
    rw [if_neg (by rintro rfl; exact h (List.mem_cons_self x xs)),
      ih (fun hm => h (List.mem_cons_of_mem x hm))]

theorem allDigits_iff (s : List Char) :
    allDigits s = true ↔ s ≠ [] ∧ ∀ c ∈ s, c.isDigit = true := by
  simp [allDigits, List.all_eq_true, List.isEmpty_iff]

theorem not_mem_of_digits (f : List Char) (hf : ∀ c ∈ f, c.isDigit = true)
    (d : Char) (hd : d.isDigit = false) : d ∉ f := by
  intro hm
  have := hf d hm
  rw [hd] at this
  cases this

theorem msDigits_spec (msF : List Char) (h : ∀ c ∈ msF, c.isDigit = true) :
    msDigits msF ≠ [] ∧ ∀ c ∈ msDigits msF, c.isDigit = true := by
  constructor
  · have hlen : (msDigits msF).length = 3 := by
      simp only [msDigits, List.length_take, List.length_append, List.length_replicate]
      omega
    intro he
    rw [he] at hlen
    simp at hlen
  · intro c hc
    have hmem := List.take_subset 3 _ hc
    rcases List.mem_append.mp hmem with h1 | h2
    · exact h c h1
    · rw [List.eq_of_mem_replicate h2]
      decide

theorem pred_colon_digits (f : List Char) (hf : ∀ c ∈ f, c.isDigit = true) :
    ∀ x ∈ f, (fun x => decide (x = ':')) x = false := by
  intro x hx
  simp only [decide_eq_false_iff_not]
  intro he
  have := hf x hx
  rw [he] at this
  exact absurd this (by decide)

theorem pred_dot_digits (f : List Char) (hf : ∀ c ∈ f, c.isDigit = true) :
    ∀ x ∈ f, (fun x => decide (x = '.')) x = false := by
  intro x hx
  simp only [decide_eq_false_iff_not]
  intro he
  have := hf x hx
  rw [he] at this
  exact absurd this (by decide)

theorem pred_commadot_digits (f : List Char) (hf : ∀ c ∈ f, c.isDigit = true) :
    ∀ x ∈ f, (fun c => c = ',' || c = '.') x = false := by
  intro x hx
  simp only [Bool.or_eq_false_iff, decide_eq_false_iff_not]
  constructor
  · intro he
    have hd := hf x hx
    rw [he] at hd
    exact absurd hd (by decide)
  · intro he
    have hd := hf x hx
    rw [he] at hd
    exact absurd hd (by decide)

theorem parseSRT_digits_ms (hF mF sF msF : List Char)
    (hh : allDigits hF = true) (hm : allDigits mF = true) (hs : allDigits sF = true)
    (hms : allDigits msF = true) :
    parseSRTTimestamp (hF ++ ':' :: (mF ++ ':' :: (sF ++ ',' :: msF))) =
      some ((digitsVal hF : ℚ) * 3600 + (digitsVal mF : ℚ) * 60 + (digitsVal sF : ℚ)
        + (digitsVal (msDigits msF) : ℚ) / 1000) := by
  obtain ⟨hhne, hhd⟩ := (allDigits_iff hF).mp hh
  obtain ⟨hmne, hmd⟩ := (allDigits_iff mF).mp hm
  obtain ⟨hsne, hsd⟩ := (allDigits_iff sF).mp hs
  obtain ⟨hmsne, hmsd⟩ := (allDigits_iff msF).mp hms
  have hcomma : ',' ∉ hF ++ ':' :: (mF ++ ':' :: sF) := by
    simp only [List.mem_append, List.mem_cons]
    push_neg
    exact ⟨not_mem_of_digits hF hhd ',' (by decide), by decide,
      not_mem_of_digits mF hmd ',' (by decide), by decide,
      not_mem_of_digits sF hsd ',' (by decide)⟩
  have e1 : replaceFirst ',' '.' (hF ++ ':' :: (mF ++ ':' :: (sF ++ ',' :: msF)))
      = hF ++ ':' :: (mF ++ ':' :: (sF ++ '.' :: msF)) := by
    have h := replaceFirst_append ',' '.' (hF ++ ':' :: (mF ++ ':' :: sF)) msF hcomma
    simpa [List.append_assoc] using h
  have e2 : splitOnChar ':' (hF ++ ':' :: (mF ++ ':' :: (sF ++ '.' :: msF)))
      = [hF, mF, sF ++ '.' :: msF] := by
    rw [splitOnChar, splitOnPred_append _ hF ':' _ (pred_colon_digits hF hhd) (by simp),
      splitOnPred_append _ mF ':' _ (pred_colon_digits mF hmd) (by simp),
      splitOnPred_eq_single]
    intro c hc
    rcases List.mem_append.mp hc with h1 | h2
    · exact pred_colon_digits sF hsd c h1
    · rcases List.mem_cons.mp h2 with h3 | h4
      · simp [h3]
      · exact pred_colon_digits msF hmsd c h4
  have e3 : splitOnChar '.' (sF ++ '.' :: msF) = [sF, msF] := by
    rw [splitOnChar, splitOnPred_append _ sF '.' _ (pred_dot_digits sF hsd) (by simp),
      splitOnPred_eq_single _ _ (pred_dot_digits msF hmsd)]
  obtain ⟨hmsne2, hmsd2⟩ := msDigits_spec msF hmsd
  unfold parseSRTTimestamp
  rw [e1]
  simp only [e2, e3, List.get?, List.headD]
  rw [if_neg (by simp [List.isEmpty_iff, hmsne])]
  rw [parseIntJS_digits hF hhne (List.all_eq_true.mpr (by simpa using hhd)),
    parseIntJS_digits mF hmne (List.all_eq_true.mpr (by simpa using hmd)),
    parseIntJS_digits sF hsne (List.all_eq_true.mpr (by simpa using hsd)),
    parseIntJS_digits (msDigits msF) hmsne2 (List.all_eq_true.mpr (by simpa using hmsd2))]
  push_cast
  ring_nf

theorem parseSRT_digits_noms (hF mF sF : List Char)
    (hh : allDigits hF = true) (hm : allDigits mF = true) (hs : allDigits sF = true) :
    parseSRTTimestamp (hF ++ ':' :: (mF ++ ':' :: sF)) =
      some ((digitsVal hF : ℚ) * 3600 + (digitsVal mF : ℚ) * 60 + (digitsVal sF : ℚ)) := by
  obtain ⟨hhne, hhd⟩ := (allDigits_iff hF).mp hh
  obtain ⟨hmne, hmd⟩ := (allDigits_iff mF).mp hm
  obtain ⟨hsne, hsd⟩ := (allDigits_iff sF).mp hs
  have hcomma : ',' ∉ hF ++ ':' :: (mF ++ ':' :: sF) := by
    simp only [List.mem_append, List.mem_cons]
    push_neg
    exact ⟨not_mem_of_digits hF hhd ',' (by decide), by decide,
      not_mem_of_digits mF hmd ',' (by decide), by decide,
      not_mem_of_digits sF hsd ',' (by decide)⟩
  have e1 : replaceFirst ',' '.' (hF ++ ':' :: (mF ++ ':' :: sF))
      = hF ++ ':' :: (mF ++ ':' :: sF) := replaceFirst_not_mem ',' '.' _ hcomma
  have e2 : splitOnChar ':' (hF ++ ':' :: (mF ++ ':' :: sF)) = [hF, mF, sF] := by
    rw [splitOnChar, splitOnPred_append _ hF ':' _ (pred_colon_digits hF hhd) (by simp),
      splitOnPred_append _ mF ':' _ (pred_colon_digits mF hmd) (by simp),
      splitOnPred_eq_single _ _ (pred_colon_digits sF hsd)]
  have e3 : splitOnChar '.' sF = [sF] := by
    rw [splitOnChar, splitOnPred_eq_single _ _ (pred_dot_digits sF hsd)]
  unfold parseSRTTimestamp
  rw [e1]
  simp only [e2, e3, List.get?, List.headD]
  rw [parseIntJS_digits hF hhne (List.all_eq_true.mpr (by simpa using hhd)),
    parseIntJS_digits mF hmne (List.all_eq_true.mpr (by simpa using hmd)),
    parseIntJS_digits sF hsne (List.all_eq_true.mpr (by simpa using hsd))]
  push_cast
  ring_nf

theorem specSRT_digits_ms (hF mF sF msF : List Char)
    (hh : allDigits hF = true) (hm : allDigits mF = true) (hs : allDigits sF = true)
    (hms : allDigits msF = true) :
    specSRTParse (hF ++ ':' :: (mF ++ ':' :: (sF ++ ',' :: msF))) =
      some ((digitsVal hF : ℚ) * 3600 + (digitsVal mF : ℚ) * 60 + (digitsVal sF : ℚ)
        + (digitsVal (msDigits msF) : ℚ) / 1000) := by
  obtain ⟨hhne, hhd⟩ := (allDigits_iff hF).mp hh
  obtain ⟨hmne, hmd⟩ := (allDigits_iff mF).mp hm
  obtain ⟨hsne, hsd⟩ := (allDigits_iff sF).mp hs
  obtain ⟨hmsne, hmsd⟩ := (allDigits_iff msF).mp hms
  have e2 : splitOnChar ':' (hF ++ ':' :: (mF ++ ':' :: (sF ++ ',' :: msF)))
      = [hF, mF, sF ++ ',' :: msF] := by
    rw [splitOnChar, splitOnPred_append _ hF ':' _ (pred_colon_digits hF hhd) (by simp),
      splitOnPred_append _ mF ':' _ (pred_colon_digits mF hmd) (by simp),
      splitOnPred_eq_single]
    intro c hc
    rcases List.mem_append.mp hc with h1 | h2
    · exact pred_colon_digits sF hsd c h1
    · rcases List.mem_cons.mp h2 with h3 | h4
      · simp [h3]
      · exact pred_colon_digits msF hmsd c h4
  have e4 : splitOnPred (fun c => c = ',' || c = '.') (sF ++ ',' :: msF) = [sF, msF] := by
    rw [splitOnPred_append _ sF ',' _ (pred_commadot_digits sF hsd) (by simp),
      splitOnPred_eq_single _ _ (pred_commadot_digits msF hmsd)]
  have hcond : (allDigits hF && allDigits mF && allDigits sF && msF.all Char.isDigit) = true := by
    rw [hh, hm, hs]
    simpa [List.all_eq_true] using hmsd
  unfold specSRTParse
  simp only [e2, e4]
  rw [if_pos hcond]

theorem parseSRT_malformed_default (s : List Char)
    (hbad : (splitOnChar ':' (replaceFirst ',' '.' s)).length ≠ 3) :
    parseSRTTimestamp s = some 0 := by
  unfold parseSRTTimestamp
  rcases hp : splitOnChar ':' (replaceFirst ',' '.' s) with
    _ | ⟨p0, _ | ⟨p1, _ | ⟨p2, _ | ⟨p3, t⟩⟩⟩⟩ <;>
    rw [hp] at hbad <;> simp_all

/-- Claim C7, counterexample: on the non-matching input `"bogus"` the
ingest parser returns the default value `0` (line 260 of
WhisperService.ts), whereas the spec's parser fails with `BadTimestamp`
(modelled `none`): the claim that the parser "fails on any non-matching
input and does not return a default value" is false. -/
theorem parseSRT_returns_default_on_malformed :
    parseSRTTimestamp "bogus".toList = some 0 ∧
    specSRTParse "bogus".toList = none := by
  constructor <;> rfl

/-- Claim C7, amended: the ingest accepts numeric milliseconds
(divided by 1000) and digit-field strings `HH:MM:SS,mmm` / `HH:MM:SS.mmm`
(comma normalized to dot before splitting), normalizing to seconds with
missing milliseconds read as 0 and more than three millisecond digits
truncated, in agreement with the spec's parser on well-formed strings; but
on a string whose colon-split does not have three fields it returns the
*default value `0`* instead of failing. -/
theorem parseSRT_normalizes (q : ℚ) (hF mF sF msF s : List Char)
    (hh : allDigits hF = true) (hm : allDigits mF = true) (hs : allDigits sF = true)
    (hms : allDigits msF = true)
    (hbad : (splitOnChar ':' (replaceFirst ',' '.' s)).length ≠ 3) :
    tsValue (RawTS.num q) = some (q / 1000) ∧
    parseSRTTimestamp (hF ++ ':' :: (mF ++ ':' :: (sF ++ ',' :: msF))) =
      some ((digitsVal hF : ℚ) * 3600 + (digitsVal mF : ℚ) * 60 + (digitsVal sF : ℚ)
        + (digitsVal (msDigits msF) : ℚ) / 1000) ∧
    parseSRTTimestamp (hF ++ ':' :: (mF ++ ':' :: sF)) =
      some ((digitsVal hF : ℚ) * 3600 + (digitsVal mF : ℚ) * 60 + (digitsVal sF : ℚ)) ∧
    specSRTParse (hF ++ ':' :: (mF ++ ':' :: (sF ++ ',' :: msF))) =
      parseSRTTimestamp (hF ++ ':' :: (mF ++ ':' :: (sF ++ ',' :: msF))) ∧
    parseSRTTimestamp s = some 0 := by
  refine ⟨rfl, parseSRT_digits_ms hF mF sF msF hh hm hs hms,
    parseSRT_digits_noms hF mF sF hh hm hs, ?_, parseSRT_malformed_default s hbad⟩
  rw [specSRT_digits_ms hF mF sF msF hh hm hs hms,
    parseSRT_digits_ms hF mF sF msF hh hm hs hms]

/-- Witness for `parseSRT_normalizes`:
`"01:02:03,4567"` parses to `3723.456 s` (extra millisecond digits
truncated), and `"bogus"` yields the default `0`. -/
theorem parseSRT_normalizes_witness :
    parseSRTTimestamp "01:02:03,4567".toList = some (465432 / 125) ∧
    parseSRTTimestamp "bogus".toList = some 0 := by
  have h := parseSRT_normalizes 1 "01".toList "02".toList "03".toList "4567".toList
    "bogus".toList rfl rfl rfl rfl (by decide)
  have heq : "01:02:03,4567".toList =
      "01".toList ++ ':' :: ("02".toList ++ ':' :: ("03".toList ++ ',' :: "4567".toList)) := rfl
  refine ⟨?_, h.2.2.2.2⟩
  rw [heq, h.2.1]
  norm_num [show digitsVal ['0', '1'] = 1 from rfl, show digitsVal ['0', '2'] = 2 from rfl,
    show digitsVal ['0', '3'] = 3 from rfl,
    show digitsVal (msDigits ['4', '5', '6', '7']) = 456 from rfl]

/-! ### Splitter lemmas -/

theorem pushSeg_ne_nil (s : List Char) : pushSeg s ≠ [] := by
  unfold pushSeg
  by_cases h : (trimChars s).isEmpty
  · rw [if_pos h]
    simp
  · rw [if_neg h]
    simpa [List.isEmpty_iff] using h

theorem splitLoop_mem_pushSeg (text : List Char) (cps : ℚ) (totalChars : ℤ) (n : ℕ) :
    ∀ (remaining : ℕ) (currentPos : ℤ) (p : List Char),
      p ∈ splitLoop text cps totalChars n remaining currentPos → ∃ s, p = pushSeg s := by
  intro remaining
  induction remaining with
  | zero =>
    intro currentPos p hp
    simp [splitLoop] at hp
  | succ k ih =>
    intro currentPos p hp
    rw [splitLoop] at hp
    by_cases hk : k = 0
    · subst hk
      rw [if_pos rfl] at hp
      rcases List.mem_singleton.mp hp with rfl
      exact ⟨_, rfl⟩
    · rw [if_neg hk] at hp
      rcases List.mem_cons.mp hp with h | h
      · exact ⟨_, h⟩
      · exact ih _ p h

theorem normalizeCount_length (n : ℕ) (r : List (List Char)) :
    (normalizeCount n r).length = n := by
  simp only [normalizeCount, List.length_take, List.length_append, List.length_replicate]
  omega

theorem mem_normalizeCount (n : ℕ) (r : List (List Char)) (p : List Char)
    (hp : p ∈ normalizeCount n r) : p ∈ r ∨ p = " ".toList := by
  rcases List.mem_append.mp (List.take_subset _ _ hp) with h | h
  · exact .inl h
  · exact .inr (List.eq_of_mem_replicate h)

/-- Claim C1, counterexample: `splitTextProportionally("", 1)` returns the
input verbatim (line 669), so the single returned part is the *empty*
string — not even the single-space placeholder — contradicting "each part
is non-empty" at the boundary `N = 1`. -/
theorem splitText_single_empty :
    splitTextProportionally [] 1 = [[]] ∧ ([] : List Char) ∈ splitTextProportionally [] 1 := by
  constructor
  · norm_num [splitTextProportionally]
  · norm_num [splitTextProportionally]

/-- Claim C1, amended: for every `N ≥ 1` the splitter returns exactly `N`
parts; for `N ≥ 2` every part is non-empty (at worst the single-space
placeholder), but for `N = 1` the result is `[T]` verbatim, whose only
part is empty exactly when `T` is empty. -/
theorem splitTextProportionally_parts (text : List Char) (targetSegmentCount : ℤ)
    (h1 : 1 ≤ targetSegmentCount) :
    (splitTextProportionally text targetSegmentCount).length = targetSegmentCount.toNat ∧
    (2 ≤ targetSegmentCount → ∀ p ∈ splitTextProportionally text targetSegmentCount, p ≠ []) ∧
    splitTextProportionally text 1 = [text] := by
  refine ⟨?_, ?_, by norm_num [splitTextProportionally]⟩
  · by_cases he : targetSegmentCount = 1
    · subst he
      simp [splitTextProportionally]
    · unfold splitTextProportionally
      rw [if_neg (by omega), if_neg he]
      exact normalizeCount_length _ _
  · intro h2 p hp
    unfold splitTextProportionally at hp
    rw [if_neg (by omega), if_neg (by omega)] at hp
    rcases mem_normalizeCount _ _ _ hp with h | h
    · obtain ⟨s, rfl⟩ := splitLoop_mem_pushSeg _ _ _ _ _ _ _ h
      exact pushSeg_ne_nil s
    · rw [h]
      simp

/-- Witness for `splitTextProportionally_parts` at `T = "ab"`, `N = 2`. -/
theorem splitTextProportionally_parts_witness :
    (splitTextProportionally "ab".toList 2).length = 2 ∧
    ∀ p ∈ splitTextProportionally "ab".toList 2, p ≠ [] := by
  have h := splitTextProportionally_parts "ab".toList 2 (by norm_num)
  exact ⟨h.1, h.2.1 (by norm_num)⟩

/-! ### Transcription ingest -/

theorem mapRawSeg_text (seg : RawWhisperSeg) :
    (mapRawSeg seg).text = trimChars (seg.text.getD []) := by
  simp only [mapRawSeg]
  split <;> rfl

/-- Claim C10: `transcribe` drops every parsed segment whose text is empty
after trimming, so the returned list never contains an empty-text segment;
when every parsed segment is empty-text the `segments` field is
`undefined`, and then the timestamp strategy is never entered. -/
theorem transcribe_drops_empty (raw : List RawWhisperSeg) :
    (∀ s ∈ ingestSegments raw, s.text ≠ []) ∧
    ((∀ seg ∈ raw, trimChars (seg.text.getD []) = []) → transcribedSegments raw = none) ∧
    (transcribedSegments raw = none → ∀ tsOk propOk singleOk : Bool,
      runSynthesize true (transcribedSegments raw) tsOk propOk singleOk ≠ .ok .timestamp) := by
  refine ⟨?_, ?_, ?_⟩
  · intro s hs
    have := List.mem_filter.mp hs
    simpa [List.isEmpty_iff] using this.2
  · intro h
    have hfil : ingestSegments raw = [] := by
      rw [ingestSegments, List.filter_eq_nil_iff]
      intro s hs
      obtain ⟨seg, hseg, rfl⟩ := List.mem_map.mp hs
      simp [mapRawSeg_text, h seg hseg]
    rw [transcribedSegments, hfil]
    rfl
  · intro hnone tsOk propOk singleOk
    rw [hnone]
    rcases tsOk <;> rcases propOk <;> rcases singleOk <;> simp [runSynthesize]

/-- Witness for `transcribe_drops_empty`: a single whitespace-only raw
segment produces `segments = undefined` and no timestamp strategy. -/
theorem transcribe_drops_empty_witness :
    transcribedSegments [⟨.num 1, .num 2, .absent, .absent, some " ".toList⟩] = none ∧
    runSynthesize true
      (transcribedSegments [⟨.num 1, .num 2, .absent, .absent, some " ".toList⟩])
      true true true ≠ .ok .timestamp := by
  have h := transcribe_drops_empty [⟨.num 1, .num 2, .absent, .absent, some " ".toList⟩]
  have hempty : ∀ seg ∈ ([⟨.num 1, .num 2, .absent, .absent, some " ".toList⟩] :
      List RawWhisperSeg), trimChars (seg.text.getD []) = [] := by
    intro seg hseg
    rcases List.mem_singleton.mp hseg with rfl
    rfl
  have hn := h.2.1 hempty
  exact ⟨hn, h.2.2 hn true true true⟩

/-! ### Silence artifacts of the synthesis loop -/

theorem synthSegments_silence_mem (actual : ℕ → ℚ) (calCount : ℕ) :
    ∀ (segs : List TimedSeg) (i : ℕ) (rate : ℤ) (samples : List CalSample)
      (prevEnd : Option ℚ) (d : ℚ),
      Artifact.silence d ∈ (synthSegments actual calCount segs i rate samples prevEnd).1 →
      d > 1 / 50 ∨ ∃ seg ∈ segs, trimChars seg.text = [] ∧ d = seg.endTime - seg.startTime := by
  intro segs
  induction segs with
  | nil =>
    intro i rate samples prevEnd d h
    simp [synthSegments] at h
  | cons seg rest ih =>
    intro i rate samples prevEnd d h
    simp only [synthSegments] at h
    by_cases hpl : (trimChars seg.text).isEmpty
    · rw [if_pos hpl] at h
      simp only at h
      rcases List.mem_append.mp h with hlead | hrest
      · by_cases hsil : (match prevEnd with
            | none => seg.startTime
            | some p => seg.startTime - p) > 1 / 50
        · rw [if_pos hsil] at hlead
          rcases List.mem_singleton.mp hlead with heq
          rw [Artifact.silence.injEq] at heq
          exact Or.inl (heq ▸ hsil)
        · rw [if_neg hsil] at hlead
          simp at hlead
      · rcases List.mem_cons.mp hrest with hd | hrec
        · rw [Artifact.silence.injEq] at hd
          exact Or.inr ⟨seg, List.mem_cons_self seg rest,
            by simpa [List.isEmpty_iff] using hpl, hd⟩
        · rcases ih _ _ _ _ _ hrec with h1 | ⟨s, hs, h3, h4⟩
          · exact Or.inl h1
          · exact Or.inr ⟨s, List.mem_cons_of_mem seg hs, h3, h4⟩
    · rw [if_neg hpl] at h
      simp only at h
      rcases List.mem_append.mp h with hlead | hrest
      · by_cases hsil : (match prevEnd with
            | none => seg.startTime
            | some p => seg.startTime - p) > 1 / 50
        · rw [if_pos hsil] at hlead
          rcases List.mem_singleton.mp hlead with heq
          rw [Artifact.silence.injEq] at heq
          exact Or.inl (heq ▸ hsil)
        · rw [if_neg hsil] at hlead
          simp at hlead
      · rcases List.mem_cons.mp hrest with hd | hrec
        · simp at hd
        · rcases ih _ _ _ _ _ hrec with h1 | ⟨s, hs, h3, h4⟩
          · exact Or.inl h1
          · exact Or.inr ⟨s, List.mem_cons_of_mem seg hs, h3, h4⟩

/-- Claim C9, counterexample: a placeholder (whitespace-text) segment of
duration `10 ms` makes the engine emit a silence artifact of `10 ms < 20 ms`
(the placeholder branch at lines 277-285 has no threshold check), so
"no silence artifact shorter than 20 ms is ever emitted" is false. -/
theorem silence_below_threshold_emitted :
    synthesizeTimestamped (fun _ => 0) 1 [⟨" ".toList, 0, 1 / 100⟩] =
      [Artifact.silence (1 / 100), Artifact.silence (99 / 100)] ∧
    ¬ ((1 : ℚ) / 100 > 1 / 50) := by
  constructor
  · unfold synthesizeTimestamped
    norm_num [synthSegments, calibrationSegmentCount, trimChars, jsWhitespace,
      List.dropWhile, show (' '.toNat) = 32 from rfl]
  · norm_num

/-- Claim C9, amended: every leading and trailing silence artifact is
emitted only when its duration exceeds 20 ms, but *placeholder* silences
(whitespace-only segment text) are emitted at the full segment duration
with no threshold; hence every silence artifact is either longer than
20 ms or a placeholder silence whose duration is exactly the segment's
target duration. -/
theorem silence_artifacts (actual : ℕ → ℚ) (originalDuration : ℚ) (aligned : List TimedSeg) :
    ∀ d : ℚ, Artifact.silence d ∈ synthesizeTimestamped actual originalDuration aligned →
      d > 1 / 50 ∨ ∃ seg ∈ aligned, trimChars seg.text = [] ∧ d = seg.endTime - seg.startTime := by
  intro d h
  unfold synthesizeTimestamped at h
  rcases List.mem_append.mp h with hloop | hfin
  · exact synthSegments_silence_mem actual _ aligned 0 0 [] none d hloop
  · by_cases hsil : originalDuration - ((aligned.getLast?).map TimedSeg.endTime).getD 0 > 1 / 50
    · rw [if_pos hsil] at hfin
      rcases List.mem_singleton.mp hfin with heq
      rw [Artifact.silence.injEq] at heq
      exact Or.inl (heq ▸ hsil)
    · rw [if_neg hsil] at hfin
      simp at hfin

/-- Witness for `silence_artifacts`: a `5 ms` silence cannot appear in the
output for a non-placeholder one-segment alignment. -/
theorem silence_artifacts_witness :
    Artifact.silence (1 / 200) ∉ synthesizeTimestamped (fun _ => 0) 5 [⟨['a'], 0, 1⟩] := by
  intro hmem
  rcases silence_artifacts (fun _ => 0) 5 [⟨['a'], 0, 1⟩] (1 / 200) hmem with
    h | ⟨seg, hseg, hts, hd⟩
  · norm_num at h
  · rcases List.mem_singleton.mp hseg with rfl
    have htrim : trimChars ['a'] = ['a'] := rfl
    rw [htrim] at hts
    cases hts

/-! ### Calibration sampling and the adaptive rate -/

theorem recordedFrom_nil (actual : ℕ → ℚ) (K i : ℕ) :
    recordedSamplesFrom actual K i [] = [] := by
  simp [recordedSamplesFrom]

theorem recordedFrom_cons_placeholder (actual : ℕ → ℚ) (K i : ℕ) (seg : TimedSeg)
    (rest : List TimedSeg) (hpl : (trimChars seg.text).isEmpty) :
    recordedSamplesFrom actual K i (seg :: rest) = recordedSamplesFrom actual K (i + 1) rest := by
  unfold recordedSamplesFrom
  rw [List.enumFrom_cons]
  simp [hpl, List.filter_cons]

theorem recordedFrom_cons_lt (actual : ℕ → ℚ) (K i : ℕ) (seg : TimedSeg)
    (rest : List TimedSeg) (hpl : ¬ (trimChars seg.text).isEmpty) (hik : i < K) :
    recordedSamplesFrom actual K i (seg :: rest) =
      ⟨seg.endTime - seg.startTime, actual i⟩ :: recordedSamplesFrom actual K (i + 1) rest := by
  unfold recordedSamplesFrom
  rw [List.enumFrom_cons]
  simp [hpl, hik, List.filter_cons]

theorem recordedFrom_cons_ge (actual : ℕ → ℚ) (K i : ℕ) (seg : TimedSeg)
    (rest : List TimedSeg) (hik : ¬ i < K) :
    recordedSamplesFrom actual K i (seg :: rest) = recordedSamplesFrom actual K (i + 1) rest := by
  unfold recordedSamplesFrom
  rw [List.enumFrom_cons]
  simp [hik, List.filter_cons]

theorem recordedFrom_ge (actual : ℕ → ℚ) (K : ℕ) :
    ∀ (segs : List TimedSeg) (i : ℕ), K ≤ i → recordedSamplesFrom actual K i segs = [] := by
  intro segs
  induction segs with
  | nil => intro i _; exact recordedFrom_nil actual K i
  | cons seg rest ih =>
    intro i hKi
    rw [recordedFrom_cons_ge actual K i seg rest (by omega)]
    exact ih (i + 1) (by omega)

theorem synthSegments_samples (actual : ℕ → ℚ) (K : ℕ) :
    ∀ (segs : List TimedSeg) (i : ℕ) (rate : ℤ) (samples : List CalSample) (prevEnd : Option ℚ),
      (synthSegments actual K segs i rate samples prevEnd).2.2 =
        samples ++ recordedSamplesFrom actual K i segs := by
  intro segs
  induction segs with
  | nil =>
    intro i rate samples prevEnd
    simp [synthSegments, recordedFrom_nil]
  | cons seg rest ih =>
    intro i rate samples prevEnd
    simp only [synthSegments]
    by_cases hpl : (trimChars seg.text).isEmpty
    · rw [if_pos hpl]
      simp only
      rw [ih, recordedFrom_cons_placeholder actual K i seg rest hpl]
    · rw [if_neg hpl]
      simp only
      rw [ih]
      by_cases hik : i < K
      · rw [if_pos hik, recordedFrom_cons_lt actual K i seg rest hpl hik]
        simp
      · rw [if_neg hik, recordedFrom_cons_ge actual K i seg rest hik]

theorem synthSegments_rate_zero (actual : ℕ → ℚ) (K : ℕ) :
    ∀ (segs : List TimedSeg) (i : ℕ) (rate : ℤ) (samples : List CalSample) (prevEnd : Option ℚ),
      (i ≤ K → rate = 0) →
      ∀ j r d, Artifact.speech j r d ∈ (synthSegments actual K segs i rate samples prevEnd).1 →
        j < K → r = 0 := by
  intro segs
  induction segs with
  | nil =>
    intro i rate samples prevEnd _ j r d h
    simp [synthSegments] at h
  | cons seg rest ih =>
    intro i rate samples prevEnd hr j r d h hjK
    simp only [synthSegments] at h
    by_cases hpl : (trimChars seg.text).isEmpty
    · rw [if_pos hpl] at h
      simp only at h
      rcases List.mem_append.mp h with hlead | hrest
      · split at hlead <;> simp at hlead
      · rcases List.mem_cons.mp hrest with hd | hrec
        · simp at hd
        · exact ih (i + 1) rate samples (some seg.endTime) (fun h1 => hr (by omega)) j r d hrec hjK
    · rw [if_neg hpl] at h
      simp only at h
      have hrate1 : (i + 1 ≤ K →
          (if i = K ∧ ¬samples.isEmpty then computeAdaptiveRate samples else rate) = 0) := by
        intro h1
        rw [if_neg (by rintro ⟨he, _⟩; omega)]
        exact hr (by omega)
      rcases List.mem_append.mp h with hlead | hrest
      · split at hlead <;> simp at hlead
      · rcases List.mem_cons.mp hrest with hd | hrec
        · rw [Artifact.speech.injEq] at hd
          obtain ⟨hj, hr2, _⟩ := hd
          subst hj
          rw [hr2, if_neg (by omega)]
          exact hr (by omega)
        · exact ih (i + 1) _ _ (some seg.endTime) hrate1 j r d hrec hjK

theorem synthSegments_rate_gate (actual : ℕ → ℚ) (K : ℕ) :
    ∀ (segs : List TimedSeg) (i : ℕ) (rate : ℤ) (samples : List CalSample) (prevEnd : Option ℚ),
      rate = 0 →
      computeAdaptiveRate (samples ++ recordedSamplesFrom actual K i segs) = 0 →
      ∀ j r d, Artifact.speech j r d ∈ (synthSegments actual K segs i rate samples prevEnd).1 →
        r = 0 := by
  intro segs
  induction segs with
  | nil =>
    intro i rate samples prevEnd _ _ j r d h
    simp [synthSegments] at h
  | cons seg rest ih =>
    intro i rate samples prevEnd hr0 hgate j r d h
    simp only [synthSegments] at h
    by_cases hpl : (trimChars seg.text).isEmpty
    · rw [if_pos hpl] at h
      simp only at h
      rw [recordedFrom_cons_placeholder actual K i seg rest hpl] at hgate
      rcases List.mem_append.mp h with hlead | hrest
      · split at hlead <;> simp at hlead
      · rcases List.mem_cons.mp hrest with hd | hrec
        · simp at hd
        · exact ih (i + 1) rate samples (some seg.endTime) hr0 hgate j r d hrec
    · rw [if_neg hpl] at h
      simp only at h
      have hrate1 : (if i = K ∧ ¬samples.isEmpty then computeAdaptiveRate samples else rate) = 0 := by
        by_cases hiK : i = K ∧ ¬samples.isEmpty
        · rw [if_pos hiK]
          rw [hiK.1] at hgate
          rw [recordedFrom_ge actual K (seg :: rest) K (le_refl K), List.append_nil] at hgate
          exact hgate
        · rw [if_neg hiK]
          exact hr0
      have hgate1 : computeAdaptiveRate
          ((if i < K then samples ++ [⟨seg.endTime - seg.startTime, actual i⟩] else samples) ++
            recordedSamplesFrom actual K (i + 1) rest) = 0 := by
        by_cases hik : i < K
        · rw [if_pos hik]
          rw [recordedFrom_cons_lt actual K i seg rest hpl hik] at hgate
          simpa using hgate
        · rw [if_neg hik]
          rw [recordedFrom_cons_ge actual K i seg rest hik] at hgate
          exact hgate
      rcases List.mem_append.mp h with hlead | hrest
      · split at hlead <;> simp at hlead
      · rcases List.mem_cons.mp hrest with hd | hrec
        · rw [Artifact.speech.injEq] at hd
          obtain ⟨_, hr2, _⟩ := hd
          rw [hr2, hrate1]
        · exact ih (i + 1) _ _ (some seg.endTime) hrate1 hgate1 j r d hrec

/-- Once the loop has passed the calibration index, the adaptive rate is
never modified again: every later speech artifact carries the rate the
loop entered that suffix with (the assignment at line 291 fires only when
`i === calibrationSegmentCount`). -/
theorem synthSegments_rate_const (actual : ℕ → ℚ) (K : ℕ) :
    ∀ (segs : List TimedSeg) (i : ℕ) (rate : ℤ) (samples : List CalSample) (prevEnd : Option ℚ),
      K < i →
      ∀ j r d, Artifact.speech j r d ∈ (synthSegments actual K segs i rate samples prevEnd).1 →
        r = rate := by
  intro segs
  induction segs with
  | nil =>
    intro i rate samples prevEnd _ j r d h
    simp [synthSegments] at h
  | cons seg rest ih =>
    intro i rate samples prevEnd hKi j r d h
    simp only [synthSegments] at h
    by_cases hpl : (trimChars seg.text).isEmpty
    · rw [if_pos hpl] at h
      simp only at h
      rcases List.mem_append.mp h with hlead | hrest
      · split at hlead <;> simp at hlead
      · rcases List.mem_cons.mp hrest with hd | hrec
        · simp at hd
        · exact ih (i + 1) rate samples (some seg.endTime) (by omega) j r d hrec
    · rw [if_neg hpl] at h
      simp only at h
      rw [if_neg (show ¬ (i = K ∧ ¬samples.isEmpty) by rintro ⟨he, _⟩; omega)] at h
      rcases List.mem_append.mp h with hlead | hrest
      · split at hlead <;> simp at hlead
      · rcases List.mem_cons.mp hrest with hd | hrec
        · rw [Artifact.speech.injEq] at hd
          exact hd.2.1
        · exact ih (i + 1) rate _ (some seg.endTime) (by omega) j r d hrec

/-- When the segment that will be processed at index `K` is a
non-placeholder and the samples accumulated by then are non-empty, the
rate assignment at lines 291-331 fires at index `K`, and every speech
artifact of index `≥ K` carries `computeAdaptiveRate` of the full
recorded-sample list (recording stops below `K`, so the samples in hand
at index `K` are exactly `samples ++ recordedSamplesFrom … i segs`). -/
theorem synthSegments_rate_after (actual : ℕ → ℚ) (K : ℕ) :
    ∀ (segs : List TimedSeg) (i : ℕ) (rate : ℤ) (samples : List CalSample) (prevEnd : Option ℚ)
      (segK : TimedSeg),
      i ≤ K →
      segs.get? (K - i) = some segK →
      ¬ (trimChars segK.text).isEmpty →
      samples ++ recordedSamplesFrom actual K i segs ≠ [] →
      ∀ j r d, Artifact.speech j r d ∈ (synthSegments actual K segs i rate samples prevEnd).1 →
        K ≤ j → r = computeAdaptiveRate (samples ++ recordedSamplesFrom actual K i segs) := by
  intro segs
  induction segs with
  | nil =>
    intro i rate samples prevEnd segK _ hget
    simp at hget
  | cons seg rest ih =>
    intro i rate samples prevEnd segK hle hget hnp hS j r d hmem hjK
    rcases Nat.lt_or_ge i K with hiK | hiK2
    · have hshift : K - i = (K - (i + 1)) + 1 := by omega
      rw [hshift] at hget
      have hget2 : rest.get? (K - (i + 1)) = some segK := by simpa using hget
      simp only [synthSegments] at hmem
      by_cases hpl : (trimChars seg.text).isEmpty
      · rw [if_pos hpl] at hmem
        simp only at hmem
        have hSrec : samples ++ recordedSamplesFrom actual K i (seg :: rest) =
            samples ++ recordedSamplesFrom actual K (i + 1) rest := by
          rw [recordedFrom_cons_placeholder actual K i seg rest hpl]
        rcases List.mem_append.mp hmem with hlead | hrest
        · split at hlead <;> simp at hlead
        · rcases List.mem_cons.mp hrest with hd | hrec
          · simp at hd
          · rw [hSrec]
            exact ih (i + 1) rate samples (some seg.endTime) segK (by omega) hget2 hnp
              (by rw [← hSrec]; exact hS) j r d hrec hjK
      · rw [if_neg hpl] at hmem
        simp only at hmem
        have hSrec : (if i < K then samples ++ [⟨seg.endTime - seg.startTime, actual i⟩]
              else samples) ++ recordedSamplesFrom actual K (i + 1) rest =
            samples ++ recordedSamplesFrom actual K i (seg :: rest) := by
          rw [if_pos hiK, recordedFrom_cons_lt actual K i seg rest hpl hiK]
          simp
        rcases List.mem_append.mp hmem with hlead | hrest
        · split at hlead <;> simp at hlead
        · rcases List.mem_cons.mp hrest with hd | hrec
          · rw [Artifact.speech.injEq] at hd
            omega
          · rw [← hSrec]
            exact ih (i + 1) _ _ (some seg.endTime) segK (by omega) hget2 hnp
              (by rw [hSrec]; exact hS) j r d hrec hjK
    · have hiK : i = K := by omega
      subst hiK
      rw [Nat.sub_self] at hget
      have hsegK : seg = segK := by simpa using hget
      have hnp2 : ¬ (trimChars seg.text).isEmpty := by rw [hsegK]; exact hnp
      have hrec0 : recordedSamplesFrom actual i i (seg :: rest) = [] :=
        recordedFrom_ge actual i (seg :: rest) i (le_refl i)
      rw [hrec0, List.append_nil] at hS ⊢
      simp only [synthSegments] at hmem
      rw [if_neg hnp2] at hmem
      simp only [true_and, lt_self_iff_false, if_false] at hmem
      have hse : ¬ samples.isEmpty = true := by simpa [List.isEmpty_iff] using hS
      rw [if_pos hse] at hmem
      rcases List.mem_append.mp hmem with hlead | hrest
      · split at hlead <;> simp at hlead
      · rcases List.mem_cons.mp hrest with hd | hrec
        · rw [Artifact.speech.injEq] at hd
          exact hd.2.1
        · exact synthSegments_rate_const actual i rest (i + 1) _ _ (some seg.endTime)
            (by omega) j r d hrec

/-- Claim C4, amended: with `K = calibrationSegmentCount N`
(`min(15, ⌊0.20·N⌋)`, floor), every speech artifact of index `< K` is
synthesized at rate `+0%`; the recorded calibration samples are exactly
one `(target, actual)` pair per non-placeholder segment of index `< K`,
in order; and when segment `K` is a non-placeholder and at least one
sample was recorded, the adaptive rate is computed on reaching index `K`:
every speech artifact of index `≥ K` carries `computeAdaptiveRate` of the
recorded samples. -/
theorem calibration_phase (actual : ℕ → ℚ) (aligned : List TimedSeg) :
    (∀ j r d, Artifact.speech j r d ∈
        (synthSegments actual (calibrationSegmentCount aligned.length) aligned 0 0 [] none).1 →
        j < calibrationSegmentCount aligned.length → r = 0) ∧
    (synthSegments actual (calibrationSegmentCount aligned.length) aligned 0 0 [] none).2.2 =
      recordedSamplesFrom actual (calibrationSegmentCount aligned.length) 0 aligned ∧
    (∀ segK, aligned.get? (calibrationSegmentCount aligned.length) = some segK →
      ¬ (trimChars segK.text).isEmpty →
      recordedSamplesFrom actual (calibrationSegmentCount aligned.length) 0 aligned ≠ [] →
      ∀ j r d, Artifact.speech j r d ∈
        (synthSegments actual (calibrationSegmentCount aligned.length) aligned 0 0 [] none).1 →
        calibrationSegmentCount aligned.length ≤ j →
        r = computeAdaptiveRate
          (recordedSamplesFrom actual (calibrationSegmentCount aligned.length) 0 aligned)) := by
  refine ⟨?_, ?_, ?_⟩
  · exact fun j r d hmem hj =>
      synthSegments_rate_zero actual _ aligned 0 0 [] none (fun _ => rfl) j r d hmem hj
  · simpa using synthSegments_samples actual _ aligned 0 0 [] none
  · intro segK hget hnp hne j r d hmem hjK
    have h := synthSegments_rate_after actual (calibrationSegmentCount aligned.length) aligned 0
      0 [] none segK (Nat.zero_le _) (by simpa using hget) hnp (by simpa using hne) j r d hmem hjK
    simpa using h

/-- Witness for `calibration_phase`: on ten one-second segments
(`K = 2`) no calibration-phase speech artifact carries a nonzero rate,
and no post-calibration artifact carries a rate other than the computed
`computeAdaptiveRate` (which is `0` for the all-ones samples). -/
theorem calibration_phase_witness :
    Artifact.speech 0 3 1 ∉
      (synthSegments (fun _ => 1)
        (calibrationSegmentCount (List.replicate 10 (⟨['a'], 0, 1⟩ : TimedSeg)).length)
        (List.replicate 10 ⟨['a'], 0, 1⟩) 0 0 [] none).1 ∧
    Artifact.speech 5 7 1 ∉
      (synthSegments (fun _ => 1)
        (calibrationSegmentCount (List.replicate 10 (⟨['a'], 0, 1⟩ : TimedSeg)).length)
        (List.replicate 10 ⟨['a'], 0, 1⟩) 0 0 [] none).1 := by
  have hK : calibrationSegmentCount (List.replicate 10 (⟨['a'], 0, 1⟩ : TimedSeg)).length = 2 := by
    norm_num [List.length_replicate, calibrationSegmentCount]
    decide
  have hrec : recordedSamplesFrom (fun _ => 1) 2 0
      (List.replicate 10 ⟨['a'], 0, 1⟩) = [⟨1, 1⟩, ⟨1, 1⟩] := by
    norm_num [recordedSamplesFrom, List.replicate, List.enumFrom, List.filter,
      show (trimChars ['a']).isEmpty = false from rfl]
  constructor
  · intro hmem
    have h := (calibration_phase (fun _ => 1) (List.replicate 10 ⟨['a'], 0, 1⟩)).1 0 3 1 hmem
      (by norm_num [List.length_replicate, calibrationSegmentCount])
    norm_num at h
  · intro hmem
    have hget : (List.replicate 10 (⟨['a'], 0, 1⟩ : TimedSeg)).get?
        (calibrationSegmentCount (List.replicate 10 (⟨['a'], 0, 1⟩ : TimedSeg)).length) =
        some ⟨['a'], 0, 1⟩ := by
      rw [hK]
      rfl
    have h := (calibration_phase (fun _ => 1) (List.replicate 10 ⟨['a'], 0, 1⟩)).2.2
      ⟨['a'], 0, 1⟩ hget (by decide) (by rw [hK, hrec]; simp) 5 7 1 hmem (by rw [hK]; omega)
    rw [hK, hrec] at h
    have hz : computeAdaptiveRate [⟨1, 1⟩, ⟨1, 1⟩] = 0 := by
      norm_num [computeAdaptiveRate, durationQuot, avgActualDuration, avgTargetDuration,
        codeVariance, sampleQuots]
    rw [hz] at h
    norm_num at h

theorem list_var_expand (l : List ℚ) (c : ℚ) :
    (l.map (fun r => (r - c) ^ 2)).sum =
      (l.map (fun r => r ^ 2)).sum - 2 * c * l.sum + l.length * c ^ 2 := by
  induction l with
  | nil => simp
  | cons x xs ih =>
    simp only [List.map_cons, List.sum_cons, List.length_cons, ih]
    push_cast
    ring

/-- The dispersion the code computes is centred on the quotient of the
means rather than the mean of the quotients, so it dominates the true
variance of the per-sample quotients. -/
theorem codeVariance_ge_trueVariance (samples : List CalSample) :
    trueVariance (sampleQuots samples) ≤ codeVariance samples := by
  rcases Nat.eq_zero_or_pos samples.length with h0 | hpos
  · have he : samples = [] := List.length_eq_zero.mp h0
    subst he
    simp [trueVariance, codeVariance, sampleQuots]
  · have hlen : (sampleQuots samples).length = samples.length := List.length_map _ _
    have hn0 : ((samples.length : ℚ)) ≠ 0 := Nat.cast_ne_zero.mpr (by omega)
    have key : codeVariance samples - trueVariance (sampleQuots samples) =
        (durationQuot samples - (sampleQuots samples).sum / samples.length) ^ 2 := by
      unfold codeVariance trueVariance
      rw [list_var_expand, list_var_expand, hlen]
      field_simp
      ring
    nlinarith [sq_nonneg (durationQuot samples - (sampleQuots samples).sum / samples.length)]

theorem computeAdaptiveRate_gate (samples : List CalSample)
    (h : (3 / 10 : ℚ) ^ 2 ≤ trueVariance (sampleQuots samples)) :
    computeAdaptiveRate samples = 0 := by
  have hge := codeVariance_ge_trueVariance samples
  have hcond : ¬ (codeVariance samples < (3 / 10 : ℚ) ^ 2) := by
    push_neg
    linarith
  unfold computeAdaptiveRate
  simp only [if_neg hcond]
  simp

/-- Claim C8: when the standard deviation of the per-sample duration
quotients over the recorded calibration samples is at least `0.3` (stated
on the variance, `σ² ≥ 0.09`), the variance gate at line 314 keeps the
adaptive rate at `+0%`, so every synthesizer call of the job carries rate
exactly `+0%`. -/
theorem variance_gate_rate_zero (actual : ℕ → ℚ) (originalDuration : ℚ) (aligned : List TimedSeg)
    (h : (3 / 10 : ℚ) ^ 2 ≤ trueVariance (sampleQuots
      (recordedSamplesFrom actual (calibrationSegmentCount aligned.length) 0 aligned))) :
    ∀ j r d, Artifact.speech j r d ∈ synthesizeTimestamped actual originalDuration aligned →
      r = 0 := by
  intro j r d hmem
  unfold synthesizeTimestamped at hmem
  rcases List.mem_append.mp hmem with hloop | hfin
  · exact synthSegments_rate_gate actual _ aligned 0 0 [] none rfl
      (by simpa using computeAdaptiveRate_gate _ h) j r d hloop
  · split at hfin <;> simp at hfin

/-- Witness for `variance_gate_rate_zero`: ten one-second segments whose
two calibration quotients are `1` and `2` (variance `0.25 ≥ 0.09`) admit
no speech artifact with a nonzero rate. -/
theorem variance_gate_rate_zero_witness :
    Artifact.speech 5 7 1 ∉ synthesizeTimestamped (fun i => if i = 0 then 1 else 2) 10
      (List.replicate 10 ⟨['a'], 0, 1⟩) := by
  intro hmem
  have hK : calibrationSegmentCount (List.replicate 10 (⟨['a'], 0, 1⟩ : TimedSeg)).length = 2 := by
    norm_num [List.length_replicate, calibrationSegmentCount]
    decide
  have hrec : recordedSamplesFrom (fun i => if i = 0 then 1 else 2) 2 0
      (List.replicate 10 ⟨['a'], 0, 1⟩) = [⟨1, 1⟩, ⟨1, 2⟩] := by
    norm_num [recordedSamplesFrom, List.replicate, List.enumFrom, List.filter,
      show (trimChars ['a']).isEmpty = false from rfl]
  have hvar : trueVariance (sampleQuots [⟨1, 1⟩, ⟨1, 2⟩]) = 1 / 4 := by
    norm_num [trueVariance, sampleQuots]
  have h := variance_gate_rate_zero (fun i => if i = 0 then 1 else 2) 10
    (List.replicate 10 ⟨['a'], 0, 1⟩)
    (by rw [hK, hrec, hvar]; norm_num) 5 7 1 hmem
  norm_num at h

/-! ### Aligner overlap analysis -/

theorem redistribute_head (rd total cum : ℚ) (s : TimedSeg) (ss : List TimedSeg) :
    (redistribute rd total cum (s :: ss)).head? =
      some ⟨s.text, cum, cum + rd * ((s.text.length : ℚ) / total)⟩ := by
  simp [redistribute]

theorem redistribute_chain (rd total : ℚ) :
    ∀ (grp : List TimedSeg) (cum : ℚ),
      List.Chain' (fun a b => a.endTime ≤ b.startTime) (redistribute rd total cum grp) := by
  intro grp
  induction grp with
  | nil => intro cum; simp [redistribute]
  | cons s ss ih =>
    intro cum
    cases ss with
    | nil => simp [redistribute]
    | cons s2 ss2 =>
      simp only [redistribute]
      rw [List.chain'_cons]
      exact ⟨le_refl _, ih _⟩

theorem redistribute_last (rd total : ℚ) :
    ∀ (grp : List TimedSeg) (cum : ℚ), grp ≠ [] →
      ∀ y ∈ (redistribute rd total cum grp).getLast?,
        y.endTime = cum + rd * (((grp.map fun s => (s.text.length : ℚ)).sum) / total) := by
  intro grp
  induction grp with
  | nil => intro cum h; exact absurd rfl h
  | cons s ss ih =>
    intro cum _ y hy
    cases ss with
    | nil =>
      simp only [redistribute, List.getLast?_singleton, Option.mem_def, Option.some.injEq] at hy
      subst hy
      simp
    | cons s2 ss2 =>
      simp only [redistribute] at hy
      rw [List.getLast?_cons_cons] at hy
      have := ih (cum + rd * ((s.text.length : ℚ) / total)) (by simp) y
        (by simpa [redistribute] using hy)
      rw [this]
      simp only [List.map_cons, List.sum_cons]
      ring

theorem head?_dropWhile_false {α} (p : α → Bool) (l : List α) (z : α)
    (hz : (l.dropWhile p).head? = some z) : p z = false := by
  have hfind : l.find? (fun x => ! (p x)) = some z := by
    rw [List.find?_not_eq_head?_dropWhile]
    exact hz
  have := List.find?_some hfind
  simpa using this

set_option maxHeartbeats 1000000 in
/-- The overlap repair always yields a chain of non-overlapping segments
(its groups are redistributed contiguously over the group head's interval,
and the element after a group starts no earlier than that interval's end),
provided every text is non-empty so the length proportions are well
defined; the head's start time is preserved. -/
theorem fixOverlaps_props :
    ∀ (n : ℕ) (l : List TimedSeg), l.length ≤ n → (∀ s ∈ l, s.text ≠ []) →
      NoOverlap (fixOverlaps l) ∧
      ∀ x ∈ (fixOverlaps l).head?, ∀ y ∈ l.head?, x.startTime = y.startTime := by
  intro n
  induction n with
  | zero =>
    intro l hlen _
    have hl : l = [] := List.length_eq_zero.mp (by omega)
    subst hl
    simp [fixOverlaps, NoOverlap]
  | succ n ih =>
    intro l hlen h3
    rcases l with _ | ⟨a, _ | ⟨b, rs⟩⟩
    · simp [fixOverlaps, NoOverlap]
    · simp [fixOverlaps, NoOverlap]
    · by_cases hb : b.startTime < a.endTime
      · have hbp : (fun s => decide (s.startTime < a.endTime)) b = true := by simpa using hb
        have hdrop : (b :: rs).dropWhile (fun s => decide (s.startTime < a.endTime)) =
            rs.dropWhile (fun s => decide (s.startTime < a.endTime)) := by
          rw [List.dropWhile_cons, if_pos hbp]
        have hrlen : ((b :: rs).dropWhile (fun s => decide (s.startTime < a.endTime))).length ≤ n := by
          rw [hdrop]
          have := (List.dropWhile_suffix (l := rs)
            (fun s => decide (s.startTime < a.endTime))).sublist.length_le
          simp only [List.length_cons] at hlen
          omega
        have hrmem : ∀ s ∈ (b :: rs).dropWhile (fun s => decide (s.startTime < a.endTime)),
            s.text ≠ [] := by
          intro s hs
          exact h3 s (List.mem_cons_of_mem a
            ((List.dropWhile_suffix (fun s => decide (s.startTime < a.endTime))).sublist.subset hs))
        have hgrpmem : ∀ s ∈ a :: (b :: rs).takeWhile (fun s => decide (s.startTime < a.endTime)),
            s.text ≠ [] := by
          intro s hs
          rcases List.mem_cons.mp hs with rfl | hs2
          · exact h3 s (List.mem_cons_self _ _)
          · exact h3 s (List.mem_cons_of_mem a
              ((List.takeWhile_prefix (fun s => decide (s.startTime < a.endTime))).sublist.subset hs2))
        have htotal : 0 <
            (((a :: (b :: rs).takeWhile fun s => decide (s.startTime < a.endTime)).map
              fun s => (s.text.length : ℚ)).sum) := by
          apply List.sum_pos
          · intro x hx
            obtain ⟨s, hs, rfl⟩ := List.mem_map.mp hx
            have := hgrpmem s hs
            have hpos : 0 < s.text.length := List.length_pos.mpr this
            exact_mod_cast hpos
          · simp
        have hfix : fixOverlaps (a :: b :: rs) =
            redistribute (a.endTime - a.startTime)
              (((a :: (b :: rs).takeWhile fun s => decide (s.startTime < a.endTime)).map
                fun s => (s.text.length : ℚ)).sum)
              a.startTime (a :: (b :: rs).takeWhile fun s => decide (s.startTime < a.endTime)) ++
            fixOverlaps ((b :: rs).dropWhile fun s => decide (s.startTime < a.endTime)) := by
          rw [fixOverlaps]
          simp [hb]
        rcases hr2 : (b :: rs).dropWhile (fun s => decide (s.startTime < a.endTime)) with
          _ | ⟨z, zs⟩
        · rw [hr2] at hfix hrlen hrmem
          rw [hfix]
          constructor
          · apply List.Chain'.append (redistribute_chain _ _ _ _) (by simp [fixOverlaps, NoOverlap])
            intro x hx y hy
            simp [fixOverlaps] at hy
          · intro x hx y hy
            simp only [redistribute, List.cons_append, List.head?_cons, Option.mem_def,
              Option.some.injEq] at hx
            simp only [List.head?_cons, Option.mem_def, Option.some.injEq] at hy
            subst hx
            subst hy
            rfl
        · rw [hr2] at hfix hrlen hrmem
          have hIH := ih (z :: zs) hrlen hrmem
          have hz : (fun s => decide (s.startTime < a.endTime)) z = false := by
            apply head?_dropWhile_false _ (b :: rs) z
            rw [hr2]
            rfl
          have hza : a.endTime ≤ z.startTime := by simpa using hz
          rw [hfix]
          constructor
          · apply List.Chain'.append (redistribute_chain _ _ _ _) hIH.1
            intro x hx y hy
            have hxe := redistribute_last (a.endTime - a.startTime) _ _ a.startTime (by simp) x hx
            have hxeq : x.endTime = a.endTime := by
              rw [hxe, div_self (ne_of_gt htotal), mul_one]
              ring
            have hys : y.startTime = z.startTime := hIH.2 y hy z rfl
            rw [hxeq, hys]
            exact hza
          · intro x hx y hy
            simp only [redistribute, List.cons_append, List.head?_cons, Option.mem_def,
              Option.some.injEq] at hx
            simp only [List.head?_cons, Option.mem_def, Option.some.injEq] at hy
            subst hx
            subst hy
            rfl
      · have hIH := ih (b :: rs) (by simp only [List.length_cons] at hlen ⊢; omega)
          (fun s hs => h3 s (List.mem_cons_of_mem a hs))
        have hfix : fixOverlaps (a :: b :: rs) = a :: fixOverlaps (b :: rs) := by
          rw [fixOverlaps]
          simp [hb]
        rw [hfix]
        constructor
        · apply List.chain'_cons'.mpr
          refine ⟨?_, hIH.1⟩
          intro y hy
          have hys : y.startTime = b.startTime := hIH.2 y hy b rfl
          rw [hys]
          exact le_of_not_lt hb
        · intro x hx y hy
          simp only [List.head?_cons, Option.mem_def, Option.some.injEq] at hx hy
          subst hx
          subst hy
          rfl

theorem chain_caseA :
    ∀ (ps : List (List Char)) (ws : List QSeg),
      List.Chain' (fun a b => a.stop ≤ b.start) ws →
      NoOverlap ((ps.zip ws).map fun p => (⟨p.1, p.2.start, p.2.stop⟩ : TimedSeg)) := by
  intro ps
  induction ps with
  | nil => intro ws _; simp [NoOverlap]
  | cons p ps ih =>
    intro ws hw
    cases ws with
    | nil => simp [NoOverlap]
    | cons w ws2 =>
      cases ps with
      | nil => simp [NoOverlap]
      | cons p2 ps2 =>
        cases ws2 with
        | nil => simp [NoOverlap]
        | cons w2 ws3 =>
          have h1 := (List.chain'_cons.mp hw).1
          have h2 := (List.chain'_cons.mp hw).2
          have htail := ih (w2 :: ws3) h2
          simp only [List.zip_cons_cons, List.map_cons, NoOverlap] at htail ⊢
          exact List.chain'_cons.mpr ⟨h1, htail⟩

theorem whisper_pairwise (ws : List QSeg) :
    (∀ w ∈ ws, w.start ≤ w.stop) →
    List.Chain' (fun a b => a.stop ≤ b.start) ws →
    List.Pairwise (fun a b => a.stop ≤ b.start) ws := by
  induction ws with
  | nil => intro _ _; simp
  | cons w rest ih =>
    intro hw1 hw2
    have hw2' : List.Chain' (fun a b => a.stop ≤ b.start) rest := hw2.tail
    have hpw := ih (fun x hx => hw1 x (List.mem_cons_of_mem w hx)) hw2'
    rw [List.pairwise_cons]
    refine ⟨?_, hpw⟩
    intro y hy
    rcases rest with _ | ⟨b, rs⟩
    · simp at hy
    · have hwb : w.stop ≤ b.start := (List.chain'_cons.mp hw2).1
      rcases List.mem_cons.mp hy with rfl | hy2
      · exact hwb
      · have hby : b.stop ≤ y.start := (List.pairwise_cons.mp hpw).1 y hy2
        have hbb : b.start ≤ b.stop := hw1 b (by simp)
        linarith

theorem whisper_get_le (ws : List QSeg)
    (hw1 : ∀ w ∈ ws, w.start ≤ w.stop)
    (hw2 : List.Chain' (fun a b => a.stop ≤ b.start) ws) :
    ∀ i j, i < j → j < ws.length → (wAt ws i).stop ≤ (wAt ws j).start := by
  intro i j hij hj
  have hpw := whisper_pairwise ws hw1 hw2
  have hi : i < ws.length := by omega
  have := List.pairwise_iff_get.mp hpw ⟨i, hi⟩ ⟨j, hj⟩ hij
  simp only [List.get_eq_getElem] at this
  unfold wAt
  rw [List.getD_eq_getElem?_getD, List.getD_eq_getElem?_getD,
    List.getElem?_eq_getElem hi, List.getElem?_eq_getElem hj]
  simpa using this

theorem getLastD_mem_self {α} (d : α) (l : List α) (h : l ≠ []) : l.getLastD d ∈ l := by
  cases l with
  | nil => exact absurd rfl h
  | cons x xs =>
    rw [List.getLastD_cons]
    have := List.getLastD_mem_cons xs x
    simpa using this

theorem caseB_props (parts : List (List Char)) (ws : List QSeg) (w2t : ℕ → ℕ) (r : ℕ)
    (hmono : ∀ i j, i ≤ j → w2t i ≤ w2t j) (hr : r = ws.length)
    (hple : ∀ i j, i < j → j < ws.length → (wAt ws i).stop ≤ (wAt ws j).start) :
    ∀ M, NoOverlap ((List.range M).filterMap (caseBEmit parts ws w2t r)) ∧
      ∀ e ∈ ((List.range M).filterMap (caseBEmit parts ws w2t r)).getLast?,
        ∃ b, b < ws.length ∧ w2t b < M ∧ e.endTime = (wAt ws b).stop := by
  intro M
  induction M with
  | zero => simp [NoOverlap]
  | succ M ih =>
    rw [List.range_succ, List.filterMap_append]
    rcases hgm : caseBEmit parts ws w2t r M with _ | e
    · rw [show List.filterMap (caseBEmit parts ws w2t r) [M] = [] by
        simp [List.filterMap, hgm]]
      rw [List.append_nil]
      exact ⟨ih.1, fun e he => by
        obtain ⟨b, hb1, hb2, hb3⟩ := ih.2 e he
        exact ⟨b, hb1, by omega, hb3⟩⟩
    · have hfl : ∃ x xs, (List.range r).filter (fun i => w2t i = M) = x :: xs := by
        unfold caseBEmit at hgm
        rcases hfl2 : (List.range r).filter (fun i => w2t i = M) with _ | ⟨x, xs⟩
        · rw [hfl2] at hgm
          cases hgm
        · exact ⟨x, xs, rfl⟩
      obtain ⟨x, xs, hfl⟩ := hfl
      have hmemfl : ∀ i ∈ x :: xs, i < r ∧ w2t i = M := by
        intro i hi
        rw [← hfl] at hi
        have := List.mem_filter.mp hi
        exact ⟨List.mem_range.mp this.1, by simpa using this.2⟩
      have he : e = ⟨tAt parts M, (wAt ws ((x :: xs).headD 0)).start,
          (wAt ws ((x :: xs).getLastD 0)).stop⟩ := by
        unfold caseBEmit at hgm
        rw [hfl] at hgm
        exact ((Option.some.injEq _ _).mp hgm).symm
      have hsingle : List.filterMap (caseBEmit parts ws w2t r) [M] = [e] := by
        simp [List.filterMap, hgm]
      rw [hsingle]
      constructor
      · apply List.Chain'.append ih.1 (List.chain'_singleton e)
        intro p hp y hy
        rcases List.mem_singleton.mp (by simpa using hy) with rfl
        obtain ⟨b, hb1, hb2, hb3⟩ := ih.2 p hp
        have hx := hmemfl x (List.mem_cons_self x xs)
        have hbx : b < x := by
          by_contra hle
          push_neg at hle
          have := hmono x b hle
          omega
        have hle := hple b x hbx (hr ▸ hx.1)
        rw [he]
        simp only
        rw [hb3]
        exact hle
      · intro e2 he2
        rw [List.getLast?_concat] at he2
        rcases Option.some.injEq .. |>.mp he2 with rfl
        refine ⟨(x :: xs).getLastD 0, ?_, ?_, ?_⟩
        · exact hr ▸ (hmemfl _ (getLastD_mem_self 0 (x :: xs) (by simp))).1
        · have := (hmemfl _ (getLastD_mem_self 0 (x :: xs) (by simp))).2
          omega
        · rw [he]

/-- Claim C2, amended: provided the recognizer segments are internally
ordered (`start ≤ end`) and mutually non-overlapping, and every translated
part is non-empty, the aligner's output has no overlaps in any of the
three count regimes (the Case C overlap repair produces a contiguous
redistribution, and Cases A and B preserve the recognizer order). -/
theorem aligner_no_overlap (parts : List (List Char)) (whisper : List QSeg)
    (hw1 : ∀ w ∈ whisper, w.start ≤ w.stop)
    (hw2 : List.Chain' (fun a b => a.stop ≤ b.start) whisper)
    (hp : ∀ p ∈ parts, p ≠ []) :
    NoOverlap (alignCore parts whisper) := by
  simp only [alignCore]
  split
  · exact chain_caseA parts whisper hw2
  · split
    · refine (caseB_props parts whisper _ whisper.length ?_ rfl
        (whisper_get_le whisper hw1 hw2) parts.length).1
      intro i j hij
      refine min_le_min ?_ (le_refl _)
      refine Int.toNat_le_toNat (Int.floor_le_floor ?_)
      refine mul_le_mul_of_nonneg_right ?_ ?_
      · exact_mod_cast hij
      · positivity
    · refine (fixOverlaps_props _ _ (le_refl _) ?_).1
      intro s hs
      obtain ⟨i, hi, rfl⟩ := List.mem_map.mp hs
      have hil : i < parts.length := List.mem_range.mp hi
      simp only
      apply hp
      unfold tAt
      rw [List.getD_eq_getElem?_getD, List.getElem?_eq_getElem hil]
      simp only [Option.getD_some]
      exact List.getElem_mem hil

/-- Claim C2, counterexample: in the equal-count regime (Case A, lines
504-513) the aligner inherits the recognizer intervals verbatim and
repairs nothing — the verification loop at lines 617-634 only warns — so
overlapping recognizer input `[0,5], [3,6]` yields overlapping aligned
segments (`aligned[1].start = 3 < 5 = aligned[0].end`). -/
theorem alignment_keeps_input_overlap :
    alignCore [['x'], ['y']] [⟨0, 5⟩, ⟨3, 6⟩] = [⟨['x'], 0, 5⟩, ⟨['y'], 3, 6⟩] ∧
    ¬ NoOverlap (alignCore [['x'], ['y']] [⟨0, 5⟩, ⟨3, 6⟩]) := by
  have he : alignCore [['x'], ['y']] [⟨0, 5⟩, ⟨3, 6⟩] = [⟨['x'], 0, 5⟩, ⟨['y'], 3, 6⟩] := rfl
  refine ⟨he, ?_⟩
  rw [he]
  intro h
  unfold NoOverlap at h
  have := (List.chain'_cons.mp h).1
  norm_num at this

/-- Witness for `aligner_no_overlap` on a concrete ordered two-segment
input. -/
theorem aligner_no_overlap_witness :
    NoOverlap (alignCore [['x'], ['y']] [⟨0, 2⟩, ⟨3, 6⟩]) := by
  apply aligner_no_overlap
  · intro w hw
    simp only [List.mem_cons, List.not_mem_nil, or_false] at hw
    rcases hw with rfl | rfl <;> norm_num
  · simp only [List.chain'_cons, List.chain'_singleton, and_true]
    norm_num
  · intro p hp
    simp only [List.mem_cons, List.not_mem_nil, or_false] at hp
    rcases hp with rfl | rfl <;> simp
